import Mathlib

/-!
Verification of the `ch06_regex` engine: a shallow embedding of the
parser (`engine/parser.rs`), code generator (`engine/codegen.rs`),
evaluator (`engine/evaluator.rs`) and the match-line driver
(`engine.rs`), together with theorems checking the natural-language
specification against this embedding.

Machine integers: `usize` is modelled as `Nat` guarded by the same
checked-addition (`helper.rs: safe_add`) the source performs, with the
overflow bound `USIZE = 2 ^ 64` made explicit.

The evaluator loops of the source may diverge (e.g. a star whose body
matches the empty string), so both evaluators take a fuel parameter and
return `Option (Except EvalError EvalResult)`: `none` means the
computation did not finish within the given fuel; `some` is exactly the
`Result` the Rust function returns.
-/

namespace Ch06Regex

/-- The bound of `usize` arithmetic (64-bit). -/
def USIZE : Nat := 2 ^ 64

/-- helper.rs `safe_add` / `usize::checked_add`: `none` on overflow. -/
def safe_add (a b : Nat) : Option Nat :=
  if a + b < USIZE then some (a + b) else none

/-- engine.rs `Instruction`.  The provided `engine.rs` snapshot omits the
`AnyChar` and `MatchEnd` constructors, but `codegen.rs` and
`evaluator.rs` (both in the provided sources) construct and interpret
them, so they are part of the instruction set. -/
inductive Instruction where
  | Char (c : Char)
  | Match
  | Jump (addr : Nat)
  | Split (addr1 addr2 : Nat)
  | Head
  | AnyChar
  | MatchEnd
deriving DecidableEq, Repr

/-- engine.rs `EvalResult`. -/
structure EvalResult where
  matched : Bool
  should_be_head : Bool
deriving DecidableEq, Repr

/-- engine.rs `EvalResult::matched()`. -/
def EvalResult.mkMatched : EvalResult := ⟨true, false⟩

/-- engine.rs `EvalResult::unmatched()`. -/
def EvalResult.unmatched : EvalResult := ⟨false, false⟩

/-- engine.rs `EvalResult::matched_if_head()`. -/
def EvalResult.matched_if_head : EvalResult := ⟨true, true⟩

/-- engine.rs `EvalResult::merge`. -/
def EvalResult.merge (a b : EvalResult) : EvalResult :=
  if a.matched then
    if b.matched then
      ⟨true, a.should_be_head && b.should_be_head⟩
    else
      ⟨true, a.should_be_head⟩
  else
    ⟨b.matched, b.should_be_head⟩

/-- evaluator.rs `EvalError`. -/
inductive EvalError where
  | PCOverFlow
  | SPOverFlow
  | InvalidPC
  | InvalidContext
deriving DecidableEq, Repr

/-- Outcome of a fuelled evaluator run: `none` = fuel ran out. -/
abbrev EvalOut := Option (Except EvalError EvalResult)

/-- evaluator.rs `eval_depth`.  One fuel unit is consumed per iteration
of the source's `loop`; the recursive calls at `Split` mirror the
source's recursion (note they restart with `should_be_head = false`,
exactly as the Rust local is re-initialised in the callee). -/
def eval_depth (inst : List Instruction) (line : List Char) :
    Nat → Nat → Nat → Bool → EvalOut
  | 0, _, _, _ => none
  | fuel + 1, pc, sp, should_be_head =>
    match inst.get? pc with
    | none => some (.error .InvalidPC)
    | some (.Char c) =>
      match line.get? sp with
      | some sp_c =>
        if c = sp_c then
          match safe_add pc 1 with
          | none => some (.error .PCOverFlow)
          | some pc' =>
            match safe_add sp 1 with
            | none => some (.error .SPOverFlow)
            | some sp' => eval_depth inst line fuel pc' sp' should_be_head
        else
          some (.ok .unmatched)
      | none => some (.ok .unmatched)
    | some .AnyChar =>
      match line.get? sp with
      | some _ =>
        match safe_add pc 1 with
        | none => some (.error .PCOverFlow)
        | some pc' =>
          match safe_add sp 1 with
          | none => some (.error .SPOverFlow)
          | some sp' => eval_depth inst line fuel pc' sp' should_be_head
      | none => some (.ok .unmatched)
    | some .Head =>
      if sp ≠ 0 then
        some (.ok .unmatched)
      else
        match safe_add pc 1 with
        | none => some (.error .PCOverFlow)
        | some pc' => eval_depth inst line fuel pc' sp true
    | some .Match =>
      some (.ok (if should_be_head then .matched_if_head else .mkMatched))
    | some .MatchEnd =>
      if (line.get? sp).isNone then
        some (.ok (if should_be_head then .matched_if_head else .mkMatched))
      else
        some (.ok .unmatched)
    | some (.Jump addr) => eval_depth inst line fuel addr sp should_be_head
    | some (.Split addr1 addr2) =>
      match eval_depth inst line fuel addr1 sp false with
      | none => none
      | some (.error e) => some (.error e)
      | some (.ok r1) =>
        match eval_depth inst line fuel addr2 sp false with
        | none => none
        | some (.error e) => some (.error e)
        | some (.ok r2) => some (.ok (r1.merge r2))

/-- A saved continuation of the breadth-first evaluator:
`(pc, sp, should_be_head)` as pushed on the `VecDeque`. -/
abbrev Ctx := Nat × Nat × Bool

/-- evaluator.rs `pop_ctx`: pop the most recent continuation
(`pop_back`), failing with `InvalidContext` when the stack is empty.
The deque is modelled as a list whose head is the back. -/
def pop_ctx : List Ctx → Except EvalError (Nat × Nat × Bool × List Ctx)
  | [] => .error .InvalidContext
  | (p, s, h) :: rest => .ok (p, s, h, rest)

/-- The block at the bottom of the `eval_width` loop: when the context
stack is non-empty, push the current state and immediately pop (a
behavioural no-op in the source, kept verbatim here). -/
def bottom_step (pc sp : Nat) (should_be_head : Bool) (ctx : List Ctx) :
    Except EvalError (Nat × Nat × Bool × List Ctx) :=
  if ctx.isEmpty then
    .ok (pc, sp, should_be_head, ctx)
  else
    pop_ctx ((pc, sp, should_be_head) :: ctx)

/-- The failure path of `eval_width` (character mismatch, end of input,
anchor violation): return `unmatched` when no continuation is saved,
otherwise pop the most recent continuation and fall through to the
bottom block. -/
def width_fail (ctx : List Ctx) :
    Except EvalError (EvalResult ⊕ (Nat × Nat × Bool × List Ctx)) :=
  if ctx.isEmpty then
    .ok (.inl .unmatched)
  else
    match pop_ctx ctx with
    | .error e => .error e
    | .ok (p, s, h, rest) =>
      match bottom_step p s h rest with
      | .error e => .error e
      | .ok st => .ok (.inr st)

/-- One iteration of the evaluator.rs `eval_width` loop:
`inl r` = the loop returns `r`, `inr st` = the loop continues in state
`st`. -/
def width_step (inst : List Instruction) (line : List Char)
    (pc sp : Nat) (should_be_head : Bool) (ctx : List Ctx) :
    Except EvalError (EvalResult ⊕ (Nat × Nat × Bool × List Ctx)) :=
  match inst.get? pc with
  | none => .error .InvalidPC
  | some (.Char c) =>
    match line.get? sp with
    | some sp_c =>
      if c = sp_c then
        match safe_add pc 1 with
        | none => .error .PCOverFlow
        | some pc' =>
          match safe_add sp 1 with
          | none => .error .SPOverFlow
          | some sp' =>
            match bottom_step pc' sp' should_be_head ctx with
            | .error e => .error e
            | .ok st => .ok (.inr st)
      else width_fail ctx
    | none => width_fail ctx
  | some .AnyChar =>
    match line.get? sp with
    | some _ =>
      match safe_add pc 1 with
      | none => .error .PCOverFlow
      | some pc' =>
        match safe_add sp 1 with
        | none => .error .SPOverFlow
        | some sp' =>
          match bottom_step pc' sp' should_be_head ctx with
          | .error e => .error e
          | .ok st => .ok (.inr st)
    | none => width_fail ctx
  | some .Head =>
    if sp ≠ 0 then
      width_fail ctx
    else
      match safe_add pc 1 with
      | none => .error .PCOverFlow
      | some pc' =>
        match bottom_step pc' sp true ctx with
        | .error e => .error e
        | .ok st => .ok (.inr st)
  | some .Match =>
    .ok (.inl (if should_be_head then .matched_if_head else .mkMatched))
  | some .MatchEnd =>
    if (line.get? sp).isNone then
      .ok (.inl (if should_be_head then .matched_if_head else .mkMatched))
    else width_fail ctx
  | some (.Jump addr) =>
    match bottom_step addr sp should_be_head ctx with
    | .error e => .error e
    | .ok st => .ok (.inr st)
  | some (.Split addr1 addr2) =>
    .ok (.inr (addr1, sp, should_be_head, (addr2, sp, should_be_head) :: ctx))

/-- evaluator.rs `eval_width` loop, one fuel unit per iteration. -/
def eval_width_loop (inst : List Instruction) (line : List Char) :
    Nat → Nat → Nat → Bool → List Ctx → EvalOut
  | 0, _, _, _, _ => none
  | fuel + 1, pc, sp, should_be_head, ctx =>
    match width_step inst line pc sp should_be_head ctx with
    | .error e => some (.error e)
    | .ok (.inl r) => some (.ok r)
    | .ok (.inr (pc', sp', sbh', ctx')) =>
      eval_width_loop inst line fuel pc' sp' sbh' ctx'

/-- evaluator.rs `eval_width`: start with empty context, `pc = sp = 0`,
`should_be_head = false`. -/
def eval_width (inst : List Instruction) (line : List Char) (fuel : Nat) :
    EvalOut :=
  eval_width_loop inst line fuel 0 0 false []

/-- evaluator.rs `eval`: dispatch between the two strategies. -/
def eval (inst : List Instruction) (line : List Char) (is_depth : Bool)
    (fuel : Nat) : EvalOut :=
  if is_depth then eval_depth inst line fuel 0 0 false
  else eval_width inst line fuel

/-! ## Parser (engine/parser.rs) -/

/-- parser.rs `AST`.  Modelled from the spec: the provided `parser.rs`
snapshot lacks the wildcard and anchor nodes, but `codegen.rs` (in the
provided sources) matches on `AST::Period`, `AST::Caret` and
`AST::Dollar`, and the spec's data model lists "wildcard (any single
code point), start-anchor, end-anchor" as node kinds, so these three
constructors are included. -/
inductive AST where
  | Char (c : Char)
  | Plus (e : AST)
  | Star (e : AST)
  | Question (e : AST)
  | Or (e1 e2 : AST)
  | Seq (es : List AST)
  | Period
  | Caret
  | Dollar

/-- parser.rs `ParseError`. -/
inductive ParseError where
  | InvalidEscape (pos : Nat) (c : Char)
  | InvalidRightParen (pos : Nat)
  | NoPrev (pos : Nat)
  | NoRightParen
  | Empty
deriving DecidableEq, Repr

/-- parser.rs `parse_escape`: the fixed escapable set. -/
def parse_escape (pos : Nat) (c : Char) : Except ParseError AST :=
  match c with
  | '\\' | '(' | ')' | '|' | '+' | '*' | '?' => .ok (.Char c)
  | _ => .error (.InvalidEscape pos c)

/-- parser.rs `PSQ`. -/
inductive PSQ where
  | Plus
  | Star
  | Question

/-- parser.rs `parse_plus_question`: pop the last node of the current
sequence (`Vec::pop`, i.e. the last element) and wrap it in the
quantifier; `NoPrev pos` when the sequence is empty. -/
def parse_plus_question (seq : List AST) (ast_type : PSQ) (pos : Nat) :
    Except ParseError (List AST) :=
  match seq.getLast? with
  | some prev =>
    let ast :=
      match ast_type with
      | .Plus => AST.Plus prev
      | .Star => AST.Star prev
      | .Question => AST.Question prev
    .ok (seq.dropLast ++ [ast])
  | none => .error (.NoPrev pos)

/-- parser.rs `fold_or`: fold the completed alternation branches
right-to-left into nested `Or` nodes (`[s1, …, sn]` becomes
`Or s1 (Or s2 (… sn))`); `none` when there is no branch. -/
def fold_or : List AST → Option AST
  | [] => none
  | [s] => some s
  | s :: rest =>
    match fold_or rest with
    | some ast => some (.Or s ast)
    | none => none

/-- parser.rs `ParseState`. -/
inductive PState where
  | ch
  | escape
deriving DecidableEq, Repr

/-- The mutable locals of parser.rs `parse`: the current sequence, the
completed alternation branches of the current level, the stack of saved
`(seq, seq_or)` pairs for open groups, and the character/escape state.
`Vec::push` is modelled as appending at the end of the list. -/
structure ParserSt where
  seq : List AST
  seq_or : List AST
  stack : List (List AST × List AST)
  state : PState

/-- Modelled from the spec: in the provided `parser.rs` snapshot the
match arms for `'|'` and `'\\'` in state `Char`, and the whole `Escape`
state, have empty bodies, and the arms for `'.'`, `'^'`, `'$'` are
absent (while `codegen.rs` consumes the nodes they produce).  Those
arms are reconstructed here following the spec: `|` closes the current
sequence into an alternation branch (failing like a dangling quantifier
when the sequence is empty, so that a leading alternation with no left
branch fails to parse), `\` enters the escape state which consumes
exactly the next character via `parse_escape`, and `.`, `^`, `$` emit
the wildcard / start-anchor / end-anchor nodes.  All remaining arms
follow the provided source text of `parse`. -/
def parse_step (st : ParserSt) (i : Nat) (c : Char) :
    Except ParseError ParserSt :=
  match st.state with
  | .ch =>
    match c with
    | '+' =>
      match parse_plus_question st.seq .Plus i with
      | .ok seq' => .ok { st with seq := seq' }
      | .error e => .error e
    | '*' =>
      match parse_plus_question st.seq .Star i with
      | .ok seq' => .ok { st with seq := seq' }
      | .error e => .error e
    | '?' =>
      match parse_plus_question st.seq .Question i with
      | .ok seq' => .ok { st with seq := seq' }
      | .error e => .error e
    | '(' =>
      .ok { st with seq := [], seq_or := [],
                    stack := st.stack ++ [(st.seq, st.seq_or)] }
    | ')' =>
      match st.stack.getLast? with
      | some (prev, prev_or) =>
        let seq_or' :=
          if !st.seq.isEmpty then st.seq_or ++ [AST.Seq st.seq] else st.seq_or
        let prev' :=
          match fold_or seq_or' with
          | some ast => prev ++ [ast]
          | none => prev
        .ok { st with seq := prev', seq_or := prev_or,
                      stack := st.stack.dropLast }
      | none => .error (.InvalidRightParen i)
    | '|' =>
      if st.seq.isEmpty then .error (.NoPrev i)
      else .ok { st with seq := [], seq_or := st.seq_or ++ [AST.Seq st.seq] }
    | '\\' => .ok { st with state := .escape }
    | '.' => .ok { st with seq := st.seq ++ [AST.Period] }
    | '^' => .ok { st with seq := st.seq ++ [AST.Caret] }
    | '$' => .ok { st with seq := st.seq ++ [AST.Dollar] }
    | _ => .ok { st with seq := st.seq ++ [AST.Char c] }
  | .escape =>
    match parse_escape i c with
    | .ok ast => .ok { st with seq := st.seq ++ [ast], state := .ch }
    | .error e => .error e

/-- The `for (i, c) in expr.chars().enumerate()` loop of parser.rs
`parse`. -/
def parse_loop (st : ParserSt) (i : Nat) :
    List Char → Except ParseError ParserSt
  | [] => .ok st
  | c :: rest =>
    match parse_step st i c with
    | .ok st' => parse_loop st' (i + 1) rest
    | .error e => .error e

/-- parser.rs `parse`: run the loop, then fail `NoRightParen` if a
group is still open, close the last sequence into a branch and fold
the branches, failing `Empty` when nothing was produced. -/
def parse (expr : String) : Except ParseError AST :=
  match parse_loop ⟨[], [], [], .ch⟩ 0 expr.toList with
  | .error e => .error e
  | .ok st =>
    if !st.stack.isEmpty then .error .NoRightParen
    else
      let seq_or :=
        if !st.seq.isEmpty then st.seq_or ++ [AST.Seq st.seq] else st.seq_or
      match fold_or seq_or with
      | some ast => .ok ast
      | none => .error .Empty

/-! ## Code generator (engine/codegen.rs) -/

/-- codegen.rs `CodeGenError`. -/
inductive CodeGenError where
  | PCOverFlow
  | FailStar
  | FailOr
  | FailQuestion
deriving DecidableEq, Repr

/-- codegen.rs `Generator`: the address counter and the instruction
arena. -/
structure Generator where
  pc : Nat
  insts : List Instruction

/-- codegen.rs `Generator::inc_pc`: overflow-checked increment. -/
def Generator.inc_pc (g : Generator) : Except CodeGenError Generator :=
  match safe_add g.pc 1 with
  | some p => .ok { g with pc := p }
  | none => .error .PCOverFlow

/-- `self.insts.push(inst)`. -/
def Generator.push (g : Generator) (i : Instruction) : Generator :=
  { g with insts := g.insts ++ [i] }

/-- The patch step of `gen_or` / `gen_star` / `gen_question`:
`if let Some(Instruction::Split(_, l2)) = self.insts.get_mut(addr)`
then set the second operand to the current `pc`, else fail. -/
def Generator.patchSplit2 (g : Generator) (addr : Nat) (err : CodeGenError) :
    Except CodeGenError Generator :=
  match g.insts.get? addr with
  | some (.Split a1 _) =>
    .ok { g with insts := g.insts.set addr (.Split a1 g.pc) }
  | _ => .error err

/-- The patch step of `gen_or` for the `Jump` placeholder. -/
def Generator.patchJump (g : Generator) (addr : Nat) (err : CodeGenError) :
    Except CodeGenError Generator :=
  match g.insts.get? addr with
  | some (.Jump _) =>
    .ok { g with insts := g.insts.set addr (.Jump g.pc) }
  | _ => .error err

/-- codegen.rs `Generator::gen_char`: push then increment. -/
def gen_char (g : Generator) (c : Char) : Except CodeGenError Generator :=
  (g.push (.Char c)).inc_pc

/-- codegen.rs `Generator::gen_caret`: `^` emits `Head`. -/
def gen_caret (g : Generator) : Except CodeGenError Generator :=
  (g.push .Head).inc_pc

/-- codegen.rs `Generator::gen_dollar`: `$` emits `MatchEnd`. -/
def gen_dollar (g : Generator) : Except CodeGenError Generator :=
  (g.push .MatchEnd).inc_pc

/-- codegen.rs `Generator::gen_period`: `.` emits `AnyChar`. -/
def gen_period (g : Generator) : Except CodeGenError Generator :=
  (g.push .AnyChar).inc_pc

mutual

/-- codegen.rs `Generator::gen_expr`, including the collapse of nested
zero-or-more wrapping: `Star(Star(x))` and `Star(Seq([Star(x)]))`
generate the code of the inner star instead of re-wrapping. -/
def gen_expr (g : Generator) (ast : AST) : Except CodeGenError Generator :=
  match ast with
  | .Char c => gen_char g c
  | .Period => gen_period g
  | .Caret => gen_caret g
  | .Dollar => gen_dollar g
  | .Or e1 e2 => gen_or g e1 e2
  | .Plus e => gen_plus g e
  | .Star (.Star e) => gen_expr g (.Star e)
  | .Star (.Seq [.Star e]) => gen_expr g (.Star e)
  | .Star e => gen_star g e
  | .Question e => gen_question g e
  | .Seq v => gen_seq g v
termination_by (sizeOf ast, 1)

/-- codegen.rs `Generator::gen_seq`: concatenate the children's code. -/
def gen_seq (g : Generator) (es : List AST) : Except CodeGenError Generator :=
  match es with
  | [] => .ok g
  | e :: rest =>
    match gen_expr g e with
    | .ok g' => gen_seq g' rest
    | .error err => .error err
termination_by (sizeOf es, 0)

/-- codegen.rs `Generator::gen_or`. -/
def gen_or (g : Generator) (e1 e2 : AST) : Except CodeGenError Generator := do
  let split_addr := g.pc
  let g ← g.inc_pc
  let g := g.push (.Split g.pc 0)
  let g ← gen_expr g e1
  let jmp_addr := g.pc
  let g := g.push (.Jump 0)
  let g ← g.inc_pc
  let g ← g.patchSplit2 split_addr .FailOr
  let g ← gen_expr g e2
  g.patchJump jmp_addr .FailOr
termination_by (1 + sizeOf e1 + sizeOf e2, 0)

/-- codegen.rs `Generator::gen_plus`. -/
def gen_plus (g : Generator) (e : AST) : Except CodeGenError Generator := do
  let l1 := g.pc
  let g ← gen_expr g e
  let g ← g.inc_pc
  .ok (g.push (.Split l1 g.pc))
termination_by (1 + sizeOf e, 0)

/-- codegen.rs `Generator::gen_star` (the plain star case, after the
collapse performed in `gen_expr`). -/
def gen_star (g : Generator) (e : AST) : Except CodeGenError Generator := do
  let l1 := g.pc
  let g ← g.inc_pc
  let g := g.push (.Split g.pc 0)
  let g ← gen_expr g e
  let g ← g.inc_pc
  let g := g.push (.Jump l1)
  g.patchSplit2 l1 .FailStar
termination_by (1 + sizeOf e, 0)

/-- codegen.rs `Generator::gen_question`. -/
def gen_question (g : Generator) (e : AST) : Except CodeGenError Generator := do
  let split_addr := g.pc
  let g ← g.inc_pc
  let g := g.push (.Split g.pc 0)
  let g ← gen_expr g e
  g.patchSplit2 split_addr .FailQuestion
termination_by (1 + sizeOf e, 0)

end

/-- codegen.rs `Generator::gen_code`: the expression's code followed by
one `Match`. -/
def gen_code (g : Generator) (ast : AST) : Except CodeGenError Generator := do
  let g ← gen_expr g ast
  let g ← g.inc_pc
  .ok (g.push .Match)

/-- codegen.rs `get_code`: run the generator from the default state. -/
def get_code (ast : AST) : Except CodeGenError (List Instruction) := do
  let g ← gen_code ⟨0, []⟩ ast
  .ok g.insts

/-! ## Drivers (engine.rs) -/

/-- The dynamic error of the drivers (`DynError` in the source is a
boxed `dyn Error`; here the three concrete error families it can
carry). -/
inductive DynError where
  | parseE (e : ParseError)
  | codegenE (e : CodeGenError)
  | evalE (e : EvalError)
deriving DecidableEq, Repr

/-- engine.rs `do_matching`: parse, generate, evaluate from offset 0
with the chosen strategy, and report the `matched` flag. -/
def do_matching (expr line : String) (is_depth : Bool) (fuel : Nat) :
    Option (Except DynError Bool) :=
  match parse expr with
  | .error e => some (.error (.parseE e))
  | .ok ast =>
    match get_code ast with
    | .error e => some (.error (.codegenE e))
    | .ok code =>
      match eval code line.toList is_depth fuel with
      | none => none
      | some (.error e) => some (.error (.evalE e))
      | some (.ok r) => some (.ok r.matched)

/-- The `for (i, _) in line.char_indices()` loop of engine.rs
`match_line`: the iterator is the character sequence of the line
(`iter` below), `i` the position of the iterator's current character
(the source's `i` is a byte offset, used only for slicing at that
character and for the test `i == 0`, so the character position is an
equivalent index).  Each round evaluates the compiled code on the
suffix `line[i..]` with the depth-first strategy, returns `true` at the
first evaluation that matched and either does not require the head
anchor or started at offset 0, keeps scanning otherwise, and returns
`false` when the characters are exhausted. -/
def match_line_loop (code : List Instruction) (line : List Char)
    (fuel : Nat) : Nat → List Char → Option (Except EvalError Bool)
  | _, [] => some (.ok false)
  | i, _ :: iter =>
    match eval code (line.drop i) true fuel with
    | none => none
    | some (.error e) => some (.error e)
    | some (.ok result) =>
      if result.matched then
        if !result.should_be_head || i == 0 then some (.ok true)
        else match_line_loop code line fuel (i + 1) iter
      else match_line_loop code line fuel (i + 1) iter

/-- engine.rs `match_line`: parse, generate, scan the offsets. -/
def match_line (expr line : String) (fuel : Nat) :
    Option (Except DynError Bool) :=
  match parse expr with
  | .error e => some (.error (.parseE e))
  | .ok ast =>
    match get_code ast with
    | .error e => some (.error (.codegenE e))
    | .ok code =>
      match match_line_loop code line.toList fuel 0 line.toList with
      | none => none
      | some (.error e) => some (.error (.evalE e))
      | some (.ok b) => some (.ok b)

/-! ## Computation helpers

`gen_expr` is defined by well-founded recursion (the collapse of nested
stars recurses on a non-subterm), so concrete code generation is
evaluated through its equation lemmas; these helpers package the
resulting rewrites. -/

/-- Decidable equality of `Except` results, used to evaluate concrete
runs of the embedded functions with `decide`. -/
instance {e a : Type} [DecidableEq e] [DecidableEq a] :
    DecidableEq (Except e a) := fun x y =>
  match x, y with
  | .ok u, .ok v =>
    if h : u = v then .isTrue (by rw [h]) else .isFalse (by simp [h])
  | .error u, .error v =>
    if h : u = v then .isTrue (by rw [h]) else .isFalse (by simp [h])
  | .ok _, .error _ => .isFalse (fun h => Except.noConfusion h)
  | .error _, .ok _ => .isFalse (fun h => Except.noConfusion h)

/-- Unfolding `match_line` once the parse and codegen results are
known. -/
theorem match_line_eq_loop {expr line : String} {ast : AST}
    {code : List Instruction} {fuel : Nat}
    (hp : parse expr = .ok ast) (hc : get_code ast = .ok code) :
    match_line expr line fuel =
      match match_line_loop code line.toList fuel 0 line.toList with
      | none => none
      | some (.error e) => some (.error (.evalE e))
      | some (.ok b) => some (.ok b) := by
  unfold match_line
  simp only [hp, hc]

/-- Unfolding `do_matching` once the parse and codegen results are
known. -/
theorem do_matching_eq_eval {expr line : String} {ast : AST}
    {code : List Instruction} {is_depth : Bool} {fuel : Nat}
    (hp : parse expr = .ok ast) (hc : get_code ast = .ok code) :
    do_matching expr line is_depth fuel =
      match eval code line.toList is_depth fuel with
      | none => none
      | some (.error e) => some (.error (.evalE e))
      | some (.ok r) => some (.ok r.matched) := by
  unfold do_matching
  simp only [hp, hc]

/-- Concrete code of `a$`. -/
theorem code_of_a_dollar :
    get_code (.Seq [.Char 'a', .Dollar]) =
      .ok [.Char 'a', .MatchEnd, .Match] := by
  simp [get_code, gen_code, gen_expr, gen_seq, gen_char, gen_dollar,
    Generator.inc_pc, Generator.push, safe_add, USIZE, Except.bind, bind]

/-- Concrete code of `a$b`. -/
theorem code_of_a_dollar_b :
    get_code (.Seq [.Char 'a', .Dollar, .Char 'b']) =
      .ok [.Char 'a', .MatchEnd, .Char 'b', .Match] := by
  simp [get_code, gen_code, gen_expr, gen_seq, gen_char, gen_dollar,
    Generator.inc_pc, Generator.push, safe_add, USIZE, Except.bind, bind]

/-- Concrete code of `a*`. -/
theorem code_of_a_star :
    get_code (.Seq [.Star (.Char 'a')]) =
      .ok [.Split 1 3, .Char 'a', .Jump 0, .Match] := by
  simp [get_code, gen_code, gen_expr, gen_seq, gen_star, gen_char,
    Generator.inc_pc, Generator.push, Generator.patchSplit2, safe_add,
    USIZE, Except.bind, bind]

/-- Concrete parse of `a$`. -/
theorem parse_of_a_dollar :
    parse "a$" = .ok (.Seq [.Char 'a', .Dollar]) := rfl

/-- Concrete parse of `a$b`. -/
theorem parse_of_a_dollar_b :
    parse "a$b" = .ok (.Seq [.Char 'a', .Dollar, .Char 'b']) := rfl

/-- Concrete parse of `a*`. -/
theorem parse_of_a_star :
    parse "a*" = .ok (.Seq [.Star (.Char 'a')]) := rfl

/-! ## Acceptance semantics

`Accepts inst line pc sp` is the angelic acceptance relation of the
instruction set: some finite execution path from `(pc, sp)` reaches
`Match`, or `MatchEnd` at end-of-input.  Both evaluator strategies are
proved to decide exactly this relation on their `matched` flag, which
settles their equivalence. -/

/-- Some finite path of the program from `(pc, sp)` accepts. -/
inductive Accepts (inst : List Instruction) (line : List Char) :
    Nat → Nat → Prop where
  | char {pc sp : Nat} {c : Char} :
      inst.get? pc = some (.Char c) → line.get? sp = some c →
      Accepts inst line (pc + 1) (sp + 1) → Accepts inst line pc sp
  | anyChar {pc sp : Nat} {c : Char} :
      inst.get? pc = some .AnyChar → line.get? sp = some c →
      Accepts inst line (pc + 1) (sp + 1) → Accepts inst line pc sp
  | head {pc : Nat} :
      inst.get? pc = some .Head → Accepts inst line (pc + 1) 0 →
      Accepts inst line pc 0
  | done {pc sp : Nat} :
      inst.get? pc = some .Match → Accepts inst line pc sp
  | matchEnd {pc sp : Nat} :
      inst.get? pc = some .MatchEnd → line.get? sp = none →
      Accepts inst line pc sp
  | jump {pc sp a : Nat} :
      inst.get? pc = some (.Jump a) → Accepts inst line a sp →
      Accepts inst line pc sp
  | split1 {pc sp a b : Nat} :
      inst.get? pc = some (.Split a b) → Accepts inst line a sp →
      Accepts inst line pc sp
  | split2 {pc sp a b : Nat} :
      inst.get? pc = some (.Split a b) → Accepts inst line b sp →
      Accepts inst line pc sp

theorem safe_add_some {a b c : Nat} (h : safe_add a b = some c) :
    c = a + b := by
  unfold safe_add at h
  split at h
  · exact (Option.some.inj h).symm
  · exact absurd h (by simp)

theorem EvalResult.merge_matched (a b : EvalResult) :
    (a.merge b).matched = (a.matched || b.matched) := by
  rcases a with ⟨am, ah⟩
  rcases b with ⟨bm, bh⟩
  cases am <;> cases bm <;> simp [EvalResult.merge]

theorem accepts_char_iff {inst line pc sp c}
    (hpc : inst.get? pc = some (.Char c)) :
    Accepts inst line pc sp ↔
      (line.get? sp = some c ∧ Accepts inst line (pc + 1) (sp + 1)) := by
  constructor
  · intro h
    cases h <;> simp_all
  · rintro ⟨h1, h2⟩
    exact .char hpc h1 h2

theorem accepts_anyChar_iff {inst line pc sp}
    (hpc : inst.get? pc = some .AnyChar) :
    Accepts inst line pc sp ↔
      (∃ c, line.get? sp = some c ∧ Accepts inst line (pc + 1) (sp + 1)) := by
  constructor
  · intro h
    cases h <;> simp_all
  · rintro ⟨c, h1, h2⟩
    exact .anyChar hpc h1 h2

theorem accepts_head_iff {inst line pc sp}
    (hpc : inst.get? pc = some .Head) :
    Accepts inst line pc sp ↔ (sp = 0 ∧ Accepts inst line (pc + 1) 0) := by
  constructor
  · intro h
    cases h <;> simp_all
  · rintro ⟨h1, h2⟩
    subst h1
    exact .head hpc h2

theorem accepts_matchEnd_iff {inst line pc sp}
    (hpc : inst.get? pc = some .MatchEnd) :
    Accepts inst line pc sp ↔ line.get? sp = none := by
  constructor
  · intro h
    cases h <;> simp_all
  · intro h1
    exact .matchEnd hpc h1

theorem accepts_jump_iff {inst line pc sp a}
    (hpc : inst.get? pc = some (.Jump a)) :
    Accepts inst line pc sp ↔ Accepts inst line a sp := by
  constructor
  · intro h
    cases h <;> simp_all
  · intro h1
    exact .jump hpc h1

theorem accepts_split_iff {inst line pc sp a b}
    (hpc : inst.get? pc = some (.Split a b)) :
    Accepts inst line pc sp ↔
      (Accepts inst line a sp ∨ Accepts inst line b sp) := by
  constructor
  · intro h
    cases h <;> simp_all
  · rintro (h1 | h1)
    · exact .split1 hpc h1
    · exact .split2 hpc h1

/-- When the depth-first evaluator returns with `matched = true`, some
path accepts. -/
theorem eval_depth_matched_accepts {inst line} :
    ∀ fuel pc sp sbh r, eval_depth inst line fuel pc sp sbh = some (.ok r) →
      r.matched = true → Accepts inst line pc sp := by
  intro fuel
  induction fuel with
  | zero =>
    intro pc sp sbh r h _
    exact absurd h (by simp [eval_depth])
  | succ fuel ih =>
    intro pc sp sbh r h hm
    rw [eval_depth] at h
    cases hpc : inst.get? pc <;> simp only [hpc] at h
    · exact absurd (Option.some.inj h) (by simp)
    next i =>
      cases i with
      | Char c =>
        cases hsp : line.get? sp <;> simp only [hsp] at h
        · cases Except.ok.inj (Option.some.inj h)
          exact absurd hm (by simp [EvalResult.unmatched])
        next d =>
          by_cases hc : c = d
          · rw [if_pos hc] at h
            cases ha1 : safe_add pc 1 <;> simp only [ha1] at h
            · exact absurd (Option.some.inj h) (by simp)
            cases ha2 : safe_add sp 1 <;> simp only [ha2] at h
            · exact absurd (Option.some.inj h) (by simp)
            next pc' sp' =>
              rw [safe_add_some ha1, safe_add_some ha2] at h
              subst hc
              exact .char hpc hsp (ih _ _ _ _ h hm)
          · rw [if_neg hc] at h
            cases Except.ok.inj (Option.some.inj h)
            exact absurd hm (by simp [EvalResult.unmatched])
      | AnyChar =>
        cases hsp : line.get? sp <;> simp only [hsp] at h
        · cases Except.ok.inj (Option.some.inj h)
          exact absurd hm (by simp [EvalResult.unmatched])
        next d =>
          cases ha1 : safe_add pc 1 <;> simp only [ha1] at h
          · exact absurd (Option.some.inj h) (by simp)
          cases ha2 : safe_add sp 1 <;> simp only [ha2] at h
          · exact absurd (Option.some.inj h) (by simp)
          next pc' sp' =>
            rw [safe_add_some ha1, safe_add_some ha2] at h
            exact .anyChar hpc hsp (ih _ _ _ _ h hm)
      | Head =>
        by_cases hsp : sp ≠ 0
        · rw [if_pos hsp] at h
          cases Except.ok.inj (Option.some.inj h)
          exact absurd hm (by simp [EvalResult.unmatched])
        · rw [if_neg hsp] at h
          cases ha1 : safe_add pc 1 <;> simp only [ha1] at h
          · exact absurd (Option.some.inj h) (by simp)
          next pc' =>
            rw [safe_add_some ha1] at h
            have hsp0 : sp = 0 := by omega
            subst hsp0
            exact .head hpc (ih _ _ _ _ h hm)
      | Match => exact .done hpc
      | MatchEnd =>
        by_cases hend : (line.get? sp).isNone
        · rw [if_pos hend] at h
          exact .matchEnd hpc (Option.isNone_iff_eq_none.mp hend)
        · rw [if_neg hend] at h
          cases Except.ok.inj (Option.some.inj h)
          exact absurd hm (by simp [EvalResult.unmatched])
      | Jump a => exact .jump hpc (ih _ _ _ _ h hm)
      | Split a b =>
        cases h1 : eval_depth inst line fuel a sp false <;> simp only [h1] at h
        · exact absurd h (by simp)
        next o1 =>
          cases o1 with
          | error e => exact absurd (Option.some.inj h) (by simp)
          | ok r1 =>
            cases h2 : eval_depth inst line fuel b sp false <;> simp only [h2] at h
            · exact absurd h (by simp)
            next o2 =>
              cases o2 with
              | error e => exact absurd (Option.some.inj h) (by simp)
              | ok r2 =>
                cases Except.ok.inj (Option.some.inj h)
                rw [EvalResult.merge_matched] at hm
                rcases Bool.or_eq_true_iff.mp hm with hm1 | hm2
                · exact .split1 hpc (ih _ _ _ _ h1 hm1)
                · exact .split2 hpc (ih _ _ _ _ h2 hm2)

/-- When the depth-first evaluator returns a result and some path
accepts, the result has `matched = true`. -/
theorem accepts_eval_depth_matched {inst line} :
    ∀ fuel pc sp sbh r, eval_depth inst line fuel pc sp sbh = some (.ok r) →
      Accepts inst line pc sp → r.matched = true := by
  intro fuel
  induction fuel with
  | zero =>
    intro pc sp sbh r h _
    exact absurd h (by simp [eval_depth])
  | succ fuel ih =>
    intro pc sp sbh r h hacc
    rw [eval_depth] at h
    cases hpc : inst.get? pc <;> simp only [hpc] at h
    · exact absurd (Option.some.inj h) (by simp)
    next i =>
      cases i with
      | Char c =>
        rcases (accepts_char_iff hpc).mp hacc with ⟨hsp, hnext⟩
        simp only [hsp, if_pos] at h
        cases ha1 : safe_add pc 1 <;> simp only [ha1] at h
        · exact absurd (Option.some.inj h) (by simp)
        cases ha2 : safe_add sp 1 <;> simp only [ha2] at h
        · exact absurd (Option.some.inj h) (by simp)
        next pc' sp' =>
          rw [safe_add_some ha1, safe_add_some ha2] at h
          exact ih _ _ _ _ h hnext
      | AnyChar =>
        rcases (accepts_anyChar_iff hpc).mp hacc with ⟨d, hsp, hnext⟩
        simp only [hsp] at h
        cases ha1 : safe_add pc 1 <;> simp only [ha1] at h
        · exact absurd (Option.some.inj h) (by simp)
        cases ha2 : safe_add sp 1 <;> simp only [ha2] at h
        · exact absurd (Option.some.inj h) (by simp)
        next pc' sp' =>
          rw [safe_add_some ha1, safe_add_some ha2] at h
          exact ih _ _ _ _ h hnext
      | Head =>
        rcases (accepts_head_iff hpc).mp hacc with ⟨hsp0, hnext⟩
        subst hsp0
        rw [if_neg (by omega)] at h
        cases ha1 : safe_add pc 1 <;> simp only [ha1] at h
        · exact absurd (Option.some.inj h) (by simp)
        next pc' =>
          rw [safe_add_some ha1] at h
          exact ih _ _ _ _ h hnext
      | Match =>
        cases Except.ok.inj (Option.some.inj h)
        cases sbh <;>
          simp [EvalResult.matched_if_head, EvalResult.mkMatched]
      | MatchEnd =>
        have hend : line.get? sp = none := (accepts_matchEnd_iff hpc).mp hacc
        simp only [hend, Option.isNone_none, if_true] at h
        cases Except.ok.inj (Option.some.inj h)
        cases sbh <;>
          simp [EvalResult.matched_if_head, EvalResult.mkMatched]
      | Jump a =>
        exact ih _ _ _ _ h ((accepts_jump_iff hpc).mp hacc)
      | Split a b =>
        cases h1 : eval_depth inst line fuel a sp false <;> simp only [h1] at h
        · exact absurd h (by simp)
        next o1 =>
          cases o1 with
          | error e => exact absurd (Option.some.inj h) (by simp)
          | ok r1 =>
            cases h2 : eval_depth inst line fuel b sp false <;> simp only [h2] at h
            · exact absurd h (by simp)
            next o2 =>
              cases o2 with
              | error e => exact absurd (Option.some.inj h) (by simp)
              | ok r2 =>
                cases Except.ok.inj (Option.some.inj h)
                rw [EvalResult.merge_matched]
                rcases (accepts_split_iff hpc).mp hacc with h3 | h3
                · rw [ih _ _ _ _ h1 h3]
                  simp
                · rw [ih _ _ _ _ h2 h3]
                  simp

/-- The depth-first evaluator's `matched` flag decides acceptance. -/
theorem eval_depth_matched_iff {inst line fuel pc sp sbh r}
    (h : eval_depth inst line fuel pc sp sbh = some (.ok r)) :
    r.matched = true ↔ Accepts inst line pc sp :=
  ⟨eval_depth_matched_accepts fuel pc sp sbh r h,
   accepts_eval_depth_matched fuel pc sp sbh r h⟩

/-- The bottom block of the `eval_width` loop is the identity on the
state: it pushes the current state and immediately pops it back. -/
theorem bottom_step_eq (pc sp : Nat) (sbh : Bool) (ctx : List Ctx) :
    bottom_step pc sp sbh ctx = .ok (pc, sp, sbh, ctx) := by
  cases ctx <;> rfl

theorem width_fail_nil : width_fail [] = .ok (.inl .unmatched) := rfl

theorem width_fail_cons (p s : Nat) (h : Bool) (rest : List Ctx) :
    width_fail ((p, s, h) :: rest) = .ok (.inr (p, s, h, rest)) := by
  simp [width_fail, pop_ctx, bottom_step_eq]

/-- `width_fail` never raises an error. -/
theorem width_fail_ok (ctx : List Ctx) :
    ∃ v, width_fail ctx = .ok v := by
  cases ctx with
  | nil => exact ⟨_, width_fail_nil⟩
  | cons t rest =>
    rcases t with ⟨p, s, h⟩
    exact ⟨_, width_fail_cons p s h rest⟩

/-- The acceptance condition of a full breadth-first evaluator state:
the current thread or one of the saved continuations accepts. -/
def AcceptsState (inst : List Instruction) (line : List Char)
    (pc sp : Nat) (ctx : List Ctx) : Prop :=
  Accepts inst line pc sp ∨ ∃ t ∈ ctx, Accepts inst line t.1 t.2.1

/-- A returning `width_step` returns `matched = true` exactly on an
accepting state. -/
theorem width_step_inl {inst line pc sp sbh ctx r}
    (h : width_step inst line pc sp sbh ctx = .ok (.inl r)) :
    (r.matched = true → Accepts inst line pc sp) ∧
      (r.matched = false → ctx = [] ∧ ¬ Accepts inst line pc sp) := by
  unfold width_step at h
  cases hpc : inst.get? pc
  case none =>
    simp only [hpc] at h
    exact absurd h (by simp)
  case some i =>
    cases i with
    | Char c =>
      simp only [hpc] at h
      cases hsp : line.get? sp <;> simp only [hsp] at h
      case none =>
        cases ctx with
        | nil =>
          rw [width_fail_nil] at h
          cases Except.ok.inj h
          refine ⟨by simp [EvalResult.unmatched], fun _ => ⟨rfl, fun hacc => ?_⟩⟩
          rcases (accepts_char_iff hpc).mp hacc with ⟨h1, _⟩
          rw [hsp] at h1
          exact Option.noConfusion h1
        | cons t rest =>
          rcases t with ⟨p, s, hh⟩
          rw [width_fail_cons] at h
          exact absurd (Except.ok.inj h) (by simp)
      next d =>
        by_cases hc : c = d
        · rw [if_pos hc] at h
          cases ha1 : safe_add pc 1 <;> simp only [ha1] at h
          · exact absurd h (by simp)
          cases ha2 : safe_add sp 1 <;> simp only [ha2] at h
          · exact absurd h (by simp)
          rw [bottom_step_eq] at h
          exact absurd (Except.ok.inj h) (by simp)
        · rw [if_neg hc] at h
          cases ctx with
          | nil =>
            rw [width_fail_nil] at h
            cases Except.ok.inj h
            refine ⟨by simp [EvalResult.unmatched], fun _ => ⟨rfl, fun hacc => ?_⟩⟩
            rcases (accepts_char_iff hpc).mp hacc with ⟨h1, _⟩
            rw [hsp] at h1
            exact hc (Option.some.inj h1).symm
          | cons t rest =>
            rcases t with ⟨p, s, hh⟩
            rw [width_fail_cons] at h
            exact absurd (Except.ok.inj h) (by simp)
    | AnyChar =>
      simp only [hpc] at h
      cases hsp : line.get? sp <;> simp only [hsp] at h
      case none =>
        cases ctx with
        | nil =>
          rw [width_fail_nil] at h
          cases Except.ok.inj h
          refine ⟨by simp [EvalResult.unmatched], fun _ => ⟨rfl, fun hacc => ?_⟩⟩
          rcases (accepts_anyChar_iff hpc).mp hacc with ⟨d, h1, _⟩
          rw [hsp] at h1
          exact Option.noConfusion h1
        | cons t rest =>
          rcases t with ⟨p, s, hh⟩
          rw [width_fail_cons] at h
          exact absurd (Except.ok.inj h) (by simp)
      next d =>
        cases ha1 : safe_add pc 1 <;> simp only [ha1] at h
        · exact absurd h (by simp)
        cases ha2 : safe_add sp 1 <;> simp only [ha2] at h
        · exact absurd h (by simp)
        rw [bottom_step_eq] at h
        exact absurd (Except.ok.inj h) (by simp)
    | Head =>
      simp only [hpc] at h
      by_cases hsp : sp ≠ 0
      · rw [if_pos hsp] at h
        cases ctx with
        | nil =>
          rw [width_fail_nil] at h
          cases Except.ok.inj h
          refine ⟨by simp [EvalResult.unmatched], fun _ => ⟨rfl, fun hacc => ?_⟩⟩
          exact hsp ((accepts_head_iff hpc).mp hacc).1
        | cons t rest =>
          rcases t with ⟨p, s, hh⟩
          rw [width_fail_cons] at h
          exact absurd (Except.ok.inj h) (by simp)
      · rw [if_neg hsp] at h
        cases ha1 : safe_add pc 1 <;> simp only [ha1] at h
        · exact absurd h (by simp)
        rw [bottom_step_eq] at h
        exact absurd (Except.ok.inj h) (by simp)
    | Match =>
      simp only [hpc] at h
      cases Except.ok.inj h
      constructor
      · intro _
        exact .done hpc
      · intro hm
        cases sbh <;>
          simp [EvalResult.matched_if_head, EvalResult.mkMatched] at hm
    | MatchEnd =>
      simp only [hpc] at h
      by_cases hend : (line.get? sp).isNone
      · rw [if_pos hend] at h
        cases Except.ok.inj h
        constructor
        · intro _
          exact .matchEnd hpc (Option.isNone_iff_eq_none.mp hend)
        · intro hm
          cases sbh <;>
            simp [EvalResult.matched_if_head, EvalResult.mkMatched] at hm
      · rw [if_neg hend] at h
        cases ctx with
        | nil =>
          rw [width_fail_nil] at h
          cases Except.ok.inj h
          refine ⟨by simp [EvalResult.unmatched], fun _ => ⟨rfl, fun hacc => ?_⟩⟩
          exact hend (by rw [(accepts_matchEnd_iff hpc).mp hacc]; rfl)
        | cons t rest =>
          rcases t with ⟨p, s, hh⟩
          rw [width_fail_cons] at h
          exact absurd (Except.ok.inj h) (by simp)
    | Jump a =>
      simp only [hpc] at h
      rw [bottom_step_eq] at h
      exact absurd (Except.ok.inj h) (by simp)
    | Split a b =>
      simp only [hpc] at h
      exact absurd (Except.ok.inj h) (by simp)

/-- A continuing `width_step` preserves state acceptance in both
directions. -/
theorem width_step_inr {inst line pc sp sbh ctx p s hh ctx'}
    (h : width_step inst line pc sp sbh ctx = .ok (.inr (p, s, hh, ctx'))) :
    AcceptsState inst line pc sp ctx ↔ AcceptsState inst line p s ctx' := by
  unfold width_step at h
  cases hpc : inst.get? pc
  case none =>
    simp only [hpc] at h
    exact absurd h (by simp)
  case some i =>
    cases i with
    | Char c =>
      simp only [hpc] at h
      cases hsp : line.get? sp <;> simp only [hsp] at h
      case none =>
        cases ctx with
        | nil =>
          rw [width_fail_nil] at h
          exact absurd (Except.ok.inj h) (by simp)
        | cons t rest =>
          rcases t with ⟨p1, s1, h1⟩
          rw [width_fail_cons] at h
          obtain ⟨rfl, rfl, rfl, rfl⟩ :
              p1 = p ∧ s1 = s ∧ h1 = hh ∧ rest = ctx' := by
            have := Except.ok.inj h
            simp at this
            exact ⟨this.1, this.2.1, this.2.2.1, this.2.2.2⟩
          unfold AcceptsState
          have hno : ¬ Accepts inst line pc sp := fun hacc => by
            rcases (accepts_char_iff hpc).mp hacc with ⟨hl, _⟩
            rw [hsp] at hl
            exact Option.noConfusion hl
          simp [hno]
      next d =>
        by_cases hc : c = d
        · rw [if_pos hc] at h
          cases ha1 : safe_add pc 1 <;> simp only [ha1] at h
          · exact absurd h (by simp)
          cases ha2 : safe_add sp 1 <;> simp only [ha2] at h
          · exact absurd h (by simp)
          next pc' sp' =>
            rw [bottom_step_eq] at h
            obtain ⟨rfl, rfl, rfl, rfl⟩ :
                pc' = p ∧ sp' = s ∧ sbh = hh ∧ ctx = ctx' := by
              have := Except.ok.inj h
              simp at this
              exact ⟨this.1, this.2.1, this.2.2.1, this.2.2.2⟩
            rw [safe_add_some ha1, safe_add_some ha2]
            unfold AcceptsState
            subst hc
            rw [accepts_char_iff hpc]
            simp only [List.get?_eq_getElem?] at hsp
            simp [hsp]
        · rw [if_neg hc] at h
          cases ctx with
          | nil =>
            rw [width_fail_nil] at h
            exact absurd (Except.ok.inj h) (by simp)
          | cons t rest =>
            rcases t with ⟨p1, s1, h1⟩
            rw [width_fail_cons] at h
            obtain ⟨rfl, rfl, rfl, rfl⟩ :
                p1 = p ∧ s1 = s ∧ h1 = hh ∧ rest = ctx' := by
              have := Except.ok.inj h
              simp at this
              exact ⟨this.1, this.2.1, this.2.2.1, this.2.2.2⟩
            unfold AcceptsState
            have hno : ¬ Accepts inst line pc sp := fun hacc => by
              rcases (accepts_char_iff hpc).mp hacc with ⟨hl, _⟩
              rw [hsp] at hl
              exact hc (Option.some.inj hl).symm
            simp [hno]
    | AnyChar =>
      simp only [hpc] at h
      cases hsp : line.get? sp <;> simp only [hsp] at h
      case none =>
        cases ctx with
        | nil =>
          rw [width_fail_nil] at h
          exact absurd (Except.ok.inj h) (by simp)
        | cons t rest =>
          rcases t with ⟨p1, s1, h1⟩
          rw [width_fail_cons] at h
          obtain ⟨rfl, rfl, rfl, rfl⟩ :
              p1 = p ∧ s1 = s ∧ h1 = hh ∧ rest = ctx' := by
            have := Except.ok.inj h
            simp at this
            exact ⟨this.1, this.2.1, this.2.2.1, this.2.2.2⟩
          unfold AcceptsState
          have hno : ¬ Accepts inst line pc sp := fun hacc => by
            rcases (accepts_anyChar_iff hpc).mp hacc with ⟨d, hl, _⟩
            rw [hsp] at hl
            exact Option.noConfusion hl
          simp [hno]
      next d =>
        cases ha1 : safe_add pc 1 <;> simp only [ha1] at h
        · exact absurd h (by simp)
        cases ha2 : safe_add sp 1 <;> simp only [ha2] at h
        · exact absurd h (by simp)
        next pc' sp' =>
          rw [bottom_step_eq] at h
          obtain ⟨rfl, rfl, rfl, rfl⟩ :
              pc' = p ∧ sp' = s ∧ sbh = hh ∧ ctx = ctx' := by
            have := Except.ok.inj h
            simp at this
            exact ⟨this.1, this.2.1, this.2.2.1, this.2.2.2⟩
          rw [safe_add_some ha1, safe_add_some ha2]
          unfold AcceptsState
          rw [accepts_anyChar_iff hpc]
          simp only [List.get?_eq_getElem?] at hsp
          simp [hsp]
    | Head =>
      simp only [hpc] at h
      by_cases hsp : sp ≠ 0
      · rw [if_pos hsp] at h
        cases ctx with
        | nil =>
          rw [width_fail_nil] at h
          exact absurd (Except.ok.inj h) (by simp)
        | cons t rest =>
          rcases t with ⟨p1, s1, h1⟩
          rw [width_fail_cons] at h
          obtain ⟨rfl, rfl, rfl, rfl⟩ :
              p1 = p ∧ s1 = s ∧ h1 = hh ∧ rest = ctx' := by
            have := Except.ok.inj h
            simp at this
            exact ⟨this.1, this.2.1, this.2.2.1, this.2.2.2⟩
          unfold AcceptsState
          have hno : ¬ Accepts inst line pc sp := fun hacc =>
            hsp ((accepts_head_iff hpc).mp hacc).1
          simp [hno]
      · rw [if_neg hsp] at h
        cases ha1 : safe_add pc 1 <;> simp only [ha1] at h
        · exact absurd h (by simp)
        next pc' =>
          rw [bottom_step_eq] at h
          obtain ⟨rfl, rfl, rfl, rfl⟩ :
              pc' = p ∧ sp = s ∧ true = hh ∧ ctx = ctx' := by
            have := Except.ok.inj h
            simp at this
            exact ⟨this.1, this.2.1, this.2.2.1.symm, this.2.2.2⟩
          rw [safe_add_some ha1]
          have hsp0 : sp = 0 := by omega
          subst hsp0
          unfold AcceptsState
          rw [accepts_head_iff hpc]
          simp
    | Match =>
      simp only [hpc] at h
      exact absurd (Except.ok.inj h) (by simp)
    | MatchEnd =>
      simp only [hpc] at h
      by_cases hend : (line.get? sp).isNone
      · rw [if_pos hend] at h
        exact absurd (Except.ok.inj h) (by simp)
      · rw [if_neg hend] at h
        cases ctx with
        | nil =>
          rw [width_fail_nil] at h
          exact absurd (Except.ok.inj h) (by simp)
        | cons t rest =>
          rcases t with ⟨p1, s1, h1⟩
          rw [width_fail_cons] at h
          obtain ⟨rfl, rfl, rfl, rfl⟩ :
              p1 = p ∧ s1 = s ∧ h1 = hh ∧ rest = ctx' := by
            have := Except.ok.inj h
            simp at this
            exact ⟨this.1, this.2.1, this.2.2.1, this.2.2.2⟩
          unfold AcceptsState
          have hno : ¬ Accepts inst line pc sp := fun hacc =>
            hend (by rw [(accepts_matchEnd_iff hpc).mp hacc]; rfl)
          simp [hno]
    | Jump a =>
      simp only [hpc] at h
      rw [bottom_step_eq] at h
      obtain ⟨rfl, rfl, rfl, rfl⟩ :
          a = p ∧ sp = s ∧ sbh = hh ∧ ctx = ctx' := by
        have := Except.ok.inj h
        simp at this
        exact ⟨this.1, this.2.1, this.2.2.1, this.2.2.2⟩
      unfold AcceptsState
      rw [accepts_jump_iff hpc]
    | Split a b =>
      simp only [hpc] at h
      obtain ⟨rfl, rfl, rfl, rfl⟩ :
          a = p ∧ sp = s ∧ sbh = hh ∧ (b, sp, sbh) :: ctx = ctx' := by
        have := Except.ok.inj h
        simp at this
        exact ⟨this.1, this.2.1, this.2.2.1, this.2.2.2⟩
      unfold AcceptsState
      rw [accepts_split_iff hpc]
      constructor
      · rintro ((h1 | h1) | ⟨t, ht, h1⟩)
        · exact .inl h1
        · exact .inr ⟨(b, sp, sbh), by simp, h1⟩
        · exact .inr ⟨t, by simp [ht], h1⟩
      · rintro (h1 | ⟨t, ht, h1⟩)
        · exact .inl (.inl h1)
        · rcases List.mem_cons.mp ht with rfl | ht'
          · exact .inl (.inr h1)
          · exact .inr ⟨t, ht', h1⟩

/-- The breadth-first evaluator's `matched` flag decides acceptance of
the full state. -/
theorem eval_width_loop_matched_iff {inst line} :
    ∀ fuel pc sp sbh ctx r,
      eval_width_loop inst line fuel pc sp sbh ctx = some (.ok r) →
      (r.matched = true ↔ AcceptsState inst line pc sp ctx) := by
  intro fuel
  induction fuel with
  | zero =>
    intro pc sp sbh ctx r h
    exact absurd h (by simp [eval_width_loop])
  | succ fuel ih =>
    intro pc sp sbh ctx r h
    rw [eval_width_loop] at h
    cases hws : width_step inst line pc sp sbh ctx <;> simp only [hws] at h
    case error e => exact absurd (Option.some.inj h) (by simp)
    case ok v =>
      cases v with
      | inl r0 =>
        cases Except.ok.inj (Option.some.inj h)
        have hc := width_step_inl hws
        constructor
        · intro hm
          exact .inl (hc.1 hm)
        · intro hacc
          cases hm : r.matched with
          | true => rfl
          | false =>
            rcases hc.2 hm with ⟨rfl, hno⟩
            rcases hacc with hacc | ⟨t, ht, _⟩
            · exact absurd hacc hno
            · exact absurd ht (List.not_mem_nil t)
      | inr st =>
        rcases st with ⟨p, s, h2, ctx'⟩
        rw [ih p s h2 ctx' r h]
        exact (width_step_inr hws).symm

/-- `width_step` never raises `InvalidContext`: every pop of the
continuation stack is guarded by a non-emptiness check or happens right
after a push. -/
theorem width_step_ne_invalid_context (inst : List Instruction)
    (line : List Char) (pc sp : Nat) (sbh : Bool) (ctx : List Ctx) :
    width_step inst line pc sp sbh ctx ≠ .error .InvalidContext := by
  intro h
  unfold width_step at h
  cases hpc : inst.get? pc
  case none =>
    simp only [hpc] at h
    exact EvalError.noConfusion (Except.error.inj h)
  case some i =>
    cases i
    case Char c =>
      simp only [hpc] at h
      cases hsp : line.get? sp <;> simp only [hsp] at h
      case none =>
        obtain ⟨v, hv⟩ := width_fail_ok ctx
        rw [hv] at h
        exact Except.noConfusion h
      next d =>
        by_cases hc : c = d
        · rw [if_pos hc] at h
          cases ha1 : safe_add pc 1 <;> simp only [ha1] at h
          · exact EvalError.noConfusion (Except.error.inj h)
          cases ha2 : safe_add sp 1 <;> simp only [ha2] at h
          · exact EvalError.noConfusion (Except.error.inj h)
          rw [bottom_step_eq] at h
          exact Except.noConfusion h
        · rw [if_neg hc] at h
          obtain ⟨v, hv⟩ := width_fail_ok ctx
          rw [hv] at h
          exact Except.noConfusion h
    case AnyChar =>
      simp only [hpc] at h
      cases hsp : line.get? sp <;> simp only [hsp] at h
      case none =>
        obtain ⟨v, hv⟩ := width_fail_ok ctx
        rw [hv] at h
        exact Except.noConfusion h
      next d =>
        cases ha1 : safe_add pc 1 <;> simp only [ha1] at h
        · exact EvalError.noConfusion (Except.error.inj h)
        cases ha2 : safe_add sp 1 <;> simp only [ha2] at h
        · exact EvalError.noConfusion (Except.error.inj h)
        rw [bottom_step_eq] at h
        exact Except.noConfusion h
    case Head =>
      simp only [hpc] at h
      by_cases hsp : sp ≠ 0
      · rw [if_pos hsp] at h
        obtain ⟨v, hv⟩ := width_fail_ok ctx
        rw [hv] at h
        exact Except.noConfusion h
      · rw [if_neg hsp] at h
        cases ha1 : safe_add pc 1 <;> simp only [ha1] at h
        · exact EvalError.noConfusion (Except.error.inj h)
        rw [bottom_step_eq] at h
        exact Except.noConfusion h
    case Match =>
      simp only [hpc] at h
      exact Except.noConfusion h
    case MatchEnd =>
      simp only [hpc] at h
      by_cases hend : (line.get? sp).isNone
      · rw [if_pos hend] at h
        exact Except.noConfusion h
      · rw [if_neg hend] at h
        obtain ⟨v, hv⟩ := width_fail_ok ctx
        rw [hv] at h
        exact Except.noConfusion h
    case Jump a =>
      simp only [hpc] at h
      rw [bottom_step_eq] at h
      exact Except.noConfusion h
    case Split a b =>
      simp only [hpc] at h
      exact Except.noConfusion h

/-- The `eval_width` loop never returns `InvalidContext`, from any
state. -/
theorem eval_width_loop_ne_invalid_context (inst : List Instruction)
    (line : List Char) :
    ∀ fuel pc sp sbh ctx,
      eval_width_loop inst line fuel pc sp sbh ctx ≠
        some (.error .InvalidContext) := by
  intro fuel
  induction fuel with
  | zero =>
    intro pc sp sbh ctx
    simp [eval_width_loop]
  | succ fuel ih =>
    intro pc sp sbh ctx
    rw [eval_width_loop]
    cases hws : width_step inst line pc sp sbh ctx
    case error e =>
      intro h
      have he := Option.some.inj h
      have : e = .InvalidContext := by
        cases he
        rfl
      exact width_step_ne_invalid_context inst line pc sp sbh ctx
        (this ▸ hws)
    case ok v =>
      cases v with
      | inl r => simp
      | inr st =>
        rcases st with ⟨p, s, h2, ctx'⟩
        exact ih p s h2 ctx'

/-! ## Code generator invariants -/

/-- The jump/split operands of an instruction. -/
def inst_targets : Instruction → List Nat
  | .Jump a => [a]
  | .Split a b => [a, b]
  | _ => []

/-- The generator invariant maintained between the emission steps of
`gen_expr`: the address counter equals the arena length, every operand
emitted so far stays within `[0, pc]`, and no `Match` has been
emitted. -/
def GOK (g : Generator) : Prop :=
  g.pc = g.insts.length ∧
  ∀ ins ∈ g.insts, (∀ t ∈ inst_targets ins, t ≤ g.pc) ∧ ins ≠ .Match

theorem inc_pc_ok {g g' : Generator} (h : g.inc_pc = .ok g') :
    g' = ⟨g.pc + 1, g.insts⟩ := by
  unfold Generator.inc_pc at h
  cases ha : safe_add g.pc 1 <;> simp only [ha] at h
  · exact absurd h (by simp)
  · rw [← Except.ok.inj h, safe_add_some ha]

theorem patchSplit2_ok {g g' : Generator} {addr : Nat} {err : CodeGenError}
    (h : g.patchSplit2 addr err = .ok g') :
    ∃ a1 b0, g.insts.get? addr = some (.Split a1 b0) ∧
      g' = ⟨g.pc, g.insts.set addr (.Split a1 g.pc)⟩ := by
  unfold Generator.patchSplit2 at h
  split at h
  next a1 b0 heq => exact ⟨a1, b0, heq, (Except.ok.inj h).symm⟩
  next => exact absurd h (by simp)

theorem patchJump_ok {g g' : Generator} {addr : Nat} {err : CodeGenError}
    (h : g.patchJump addr err = .ok g') :
    ∃ a0, g.insts.get? addr = some (.Jump a0) ∧
      g' = ⟨g.pc, g.insts.set addr (.Jump g.pc)⟩ := by
  unfold Generator.patchJump at h
  split at h
  next a0 heq => exact ⟨a0, heq, (Except.ok.inj h).symm⟩
  next => exact absurd h (by simp)

/-- Pushing a non-`Match` instruction whose operands stay within
`pc + 1`, then incrementing, preserves the invariant. -/
theorem gok_push_inc {g g' : Generator} {ins : Instruction} (hg : GOK g)
    (ht : ∀ t ∈ inst_targets ins, t ≤ g.pc + 1) (hm : ins ≠ .Match)
    (h : (g.push ins).inc_pc = .ok g') : GOK g' ∧ g.pc ≤ g'.pc := by
  have hd := inc_pc_ok h
  subst hd
  refine ⟨⟨?_, ?_⟩, by simp [Generator.push]⟩
  · simp [Generator.push, hg.1]
  · intro ins' hins'
    simp only [Generator.push] at hins'
    rcases List.mem_append.mp hins' with hold | hnew
    · refine ⟨fun t htar => ?_, (hg.2 ins' hold).2⟩
      have := (hg.2 ins' hold).1 t htar
      simp [Generator.push]
      omega
    · rcases List.mem_singleton.mp hnew with rfl
      exact ⟨fun t htar => by simpa [Generator.push] using ht t htar, hm⟩

/-- Patching a `Split`'s second operand to the current `pc` preserves
the invariant. -/
theorem gok_patchSplit2 {g g' : Generator} {addr : Nat}
    {err : CodeGenError} (hg : GOK g) (h : g.patchSplit2 addr err = .ok g') :
    GOK g' ∧ g.pc ≤ g'.pc := by
  obtain ⟨a1, b0, hget, rfl⟩ := patchSplit2_ok h
  have hmem : Instruction.Split a1 b0 ∈ g.insts := List.get?_mem hget
  refine ⟨⟨by simp [hg.1], ?_⟩, le_refl _⟩
  intro ins hins
  rcases List.mem_or_eq_of_mem_set hins with hold | rfl
  · exact hg.2 ins hold
  · refine ⟨fun t htar => ?_, by simp⟩
    rcases List.mem_cons.mp htar with rfl | htar'
    · exact (hg.2 _ hmem).1 _ (List.mem_cons_self _ _)
    · rcases List.mem_singleton.mp htar' with rfl
      exact le_refl _

/-- Patching a `Jump`'s operand to the current `pc` preserves the
invariant. -/
theorem gok_patchJump {g g' : Generator} {addr : Nat}
    {err : CodeGenError} (hg : GOK g) (h : g.patchJump addr err = .ok g') :
    GOK g' ∧ g.pc ≤ g'.pc := by
  obtain ⟨a0, hget, rfl⟩ := patchJump_ok h
  refine ⟨⟨by simp [hg.1], ?_⟩, le_refl _⟩
  intro ins hins
  rcases List.mem_or_eq_of_mem_set hins with hold | rfl
  · exact hg.2 ins hold
  · refine ⟨fun t htar => ?_, by simp⟩
    rcases List.mem_singleton.mp htar with rfl
    exact le_refl _

/-- The state after `inc_pc` followed by pushing the `Split (pc, 0)`
placeholder of `gen_or` / `gen_star` / `gen_question` satisfies the
invariant. -/
theorem gok_inc_push_split {g g1 : Generator} (hg : GOK g)
    (h : g.inc_pc = .ok g1) :
    GOK (g1.push (.Split g1.pc 0)) ∧
      (g1.push (.Split g1.pc 0)).pc = g.pc + 1 := by
  have hd := inc_pc_ok h
  subst hd
  refine ⟨⟨?_, ?_⟩, rfl⟩
  · simp [Generator.push, hg.1]
  · intro ins hins
    simp only [Generator.push] at hins
    rcases List.mem_append.mp hins with hold | hnew
    · refine ⟨fun t htar => ?_, (hg.2 ins hold).2⟩
      have := (hg.2 ins hold).1 t htar
      simp [Generator.push]
      omega
    · rcases List.mem_singleton.mp hnew with rfl
      refine ⟨fun t htar => ?_, by simp⟩
      rcases List.mem_cons.mp htar with rfl | htar'
      · exact le_refl _
      · rcases List.mem_singleton.mp htar' with rfl
        exact Nat.zero_le _

/-- The collapse equations of `gen_expr` in the plain-star case. -/
theorem gen_expr_star_eq {e : AST} (h1 : ∀ x, e ≠ .Star x)
    (h2 : ∀ x, e ≠ .Seq [.Star x]) (g : Generator) :
    gen_expr g (.Star e) = gen_star g e := by
  cases e with
  | Star x => exact absurd rfl (h1 x)
  | Seq l =>
    match l with
    | [] => simp [gen_expr]
    | [AST.Star x] => exact absurd rfl (h2 x)
    | [AST.Char c] => simp [gen_expr]
    | [AST.Plus x] => simp [gen_expr]
    | [AST.Question x] => simp [gen_expr]
    | [AST.Or x y] => simp [gen_expr]
    | [AST.Seq l2] => simp [gen_expr]
    | [AST.Period] => simp [gen_expr]
    | [AST.Caret] => simp [gen_expr]
    | [AST.Dollar] => simp [gen_expr]
    | x :: y :: rest => simp [gen_expr]
  | Char c => simp [gen_expr]
  | Plus x => simp [gen_expr]
  | Question x => simp [gen_expr]
  | Or x y => simp [gen_expr]
  | Period => simp [gen_expr]
  | Caret => simp [gen_expr]
  | Dollar => simp [gen_expr]

/-- Pushing one trailing instruction onto a state whose counter is one
past the arena preserves the invariant. -/
theorem gok_off_push {g0 : Generator} {ins : Instruction}
    (hwf : g0.pc = g0.insts.length + 1)
    (hold : ∀ i ∈ g0.insts, (∀ t ∈ inst_targets i, t ≤ g0.pc) ∧ i ≠ .Match)
    (ht : ∀ t ∈ inst_targets ins, t ≤ g0.pc) (hm : ins ≠ .Match) :
    GOK (g0.push ins) := by
  refine ⟨by simp [Generator.push, hwf], ?_⟩
  intro i hi
  simp only [Generator.push] at hi ⊢
  rcases List.mem_append.mp hi with h1 | h1
  · exact hold i h1
  · rcases List.mem_singleton.mp h1 with rfl
    exact ⟨ht, hm⟩

theorem gen_plus_gok {e : AST} {g : Generator}
    (ihe : ∀ g', GOK g → gen_expr g e = .ok g' → GOK g' ∧ g.pc ≤ g'.pc) :
    ∀ g', GOK g → gen_plus g e = .ok g' → GOK g' ∧ g.pc ≤ g'.pc := by
  intro g' hg h
  unfold gen_plus at h
  simp only [bind, Except.bind] at h
  cases hge : gen_expr g e with
  | error err =>
    simp only [hge] at h
    exact absurd h (by simp)
  | ok g1 =>
    simp only [hge] at h
    obtain ⟨hg1, hle1⟩ := ihe g1 hg hge
    cases hinc : g1.inc_pc with
    | error err =>
      simp only [hinc] at h
      exact absurd h (by simp)
    | ok g2 =>
      simp only [hinc] at h
      have hd := inc_pc_ok hinc
      subst hd
      rw [← Except.ok.inj h]
      constructor
      · refine gok_off_push (by simp [hg1.1]) ?_ ?_ (by simp)
        · intro i hi
          refine ⟨fun t htar => ?_, (hg1.2 i hi).2⟩
          have := (hg1.2 i hi).1 t htar
          show t ≤ g1.pc + 1
          omega
        · intro t htar
          rcases List.mem_cons.mp htar with rfl | htar'
          · show g.pc ≤ g1.pc + 1
            omega
          · rcases List.mem_singleton.mp htar' with rfl
            exact le_refl _
      · simp [Generator.push]
        omega

theorem gen_question_gok {e : AST} {g : Generator}
    (ihe : ∀ (g0 g' : Generator), GOK (g0.push (.Split g0.pc 0)) →
      gen_expr (g0.push (.Split g0.pc 0)) e = .ok g' →
      GOK g' ∧ (g0.push (.Split g0.pc 0)).pc ≤ g'.pc) :
    ∀ g', GOK g → gen_question g e = .ok g' → GOK g' ∧ g.pc ≤ g'.pc := by
  intro g' hg h
  unfold gen_question at h
  simp only [bind, Except.bind] at h
  cases hinc : g.inc_pc with
  | error err =>
    simp only [hinc] at h
    exact absurd h (by simp)
  | ok g1 =>
    simp only [hinc] at h
    obtain ⟨hg2, hpc2⟩ := gok_inc_push_split hg hinc
    cases hge : gen_expr (g1.push (.Split g1.pc 0)) e with
    | error err =>
      simp only [hge] at h
      exact absurd h (by simp)
    | ok g3 =>
      simp only [hge] at h
      obtain ⟨hg3, hle3⟩ := ihe g1 g3 hg2 hge
      obtain ⟨hg4, hle4⟩ := gok_patchSplit2 hg3 h
      have hpp : (g1.push (.Split g1.pc 0)).pc = g1.pc := rfl
      have hpc1 : g1.pc = g.pc + 1 := by rw [inc_pc_ok hinc]
      exact ⟨hg4, by omega⟩

theorem gen_star_gok {e : AST} {g : Generator}
    (ihe : ∀ (g0 g' : Generator), GOK (g0.push (.Split g0.pc 0)) →
      gen_expr (g0.push (.Split g0.pc 0)) e = .ok g' →
      GOK g' ∧ (g0.push (.Split g0.pc 0)).pc ≤ g'.pc) :
    ∀ g', GOK g → gen_star g e = .ok g' → GOK g' ∧ g.pc ≤ g'.pc := by
  intro g' hg h
  unfold gen_star at h
  simp only [bind, Except.bind] at h
  cases hinc : g.inc_pc with
  | error err =>
    simp only [hinc] at h
    exact absurd h (by simp)
  | ok g1 =>
    simp only [hinc] at h
    obtain ⟨hg2, hpc2⟩ := gok_inc_push_split hg hinc
    cases hge : gen_expr (g1.push (.Split g1.pc 0)) e with
    | error err =>
      simp only [hge] at h
      exact absurd h (by simp)
    | ok g3 =>
      simp only [hge] at h
      obtain ⟨hg3, hle3⟩ := ihe g1 g3 hg2 hge
      cases hinc2 : g3.inc_pc with
      | error err =>
        simp only [hinc2] at h
        exact absurd h (by simp)
      | ok g4 =>
        simp only [hinc2] at h
        have hd := inc_pc_ok hinc2
        subst hd
        have hpc1 : g1.pc = g.pc + 1 := by
          have := inc_pc_ok hinc
          rw [this]
        have hle3' : g.pc + 1 ≤ g3.pc := by
          have hpp : (g1.push (.Split g1.pc 0)).pc = g1.pc := rfl
          omega
        have hg5 : GOK (Generator.push ⟨g3.pc + 1, g3.insts⟩ (.Jump g.pc)) := by
          refine gok_off_push (by simp [hg3.1]) ?_ ?_ (by simp)
          · intro i hi
            refine ⟨fun t htar => ?_, (hg3.2 i hi).2⟩
            have := (hg3.2 i hi).1 t htar
            show t ≤ g3.pc + 1
            omega
          · intro t htar
            rcases List.mem_singleton.mp htar with rfl
            show g.pc ≤ g3.pc + 1
            omega
        obtain ⟨hg6, hle6⟩ := gok_patchSplit2 hg5 h
        refine ⟨hg6, ?_⟩
        have : (Generator.push ⟨g3.pc + 1, g3.insts⟩ (.Jump g.pc)).pc =
            g3.pc + 1 := rfl
        omega

theorem gen_or_gok {e1 e2 : AST} {g : Generator}
    (ih1 : ∀ (g0 g' : Generator), GOK (g0.push (.Split g0.pc 0)) →
      gen_expr (g0.push (.Split g0.pc 0)) e1 = .ok g' →
      GOK g' ∧ (g0.push (.Split g0.pc 0)).pc ≤ g'.pc)
    (ih2 : ∀ (g0 g' : Generator), GOK g0 → gen_expr g0 e2 = .ok g' →
      GOK g' ∧ g0.pc ≤ g'.pc) :
    ∀ g', GOK g → gen_or g e1 e2 = .ok g' → GOK g' ∧ g.pc ≤ g'.pc := by
  intro g' hg h
  unfold gen_or at h
  simp only [bind, Except.bind] at h
  cases hinc : g.inc_pc with
  | error err =>
    simp only [hinc] at h
    exact absurd h (by simp)
  | ok g1 =>
    simp only [hinc] at h
    obtain ⟨hg2, hpc2⟩ := gok_inc_push_split hg hinc
    cases hge1 : gen_expr (g1.push (.Split g1.pc 0)) e1 with
    | error err =>
      simp only [hge1] at h
      exact absurd h (by simp)
    | ok g3 =>
      simp only [hge1] at h
      obtain ⟨hg3, hle3⟩ := ih1 g1 g3 hg2 hge1
      have hpp : (g1.push (.Split g1.pc 0)).pc = g1.pc := rfl
      have hpc1 : g1.pc = g.pc + 1 := by rw [inc_pc_ok hinc]
      cases hinc2 : (g3.push (.Jump 0)).inc_pc with
      | error err =>
        simp only [hinc2] at h
        exact absurd h (by simp)
      | ok g5 =>
        simp only [hinc2] at h
        obtain ⟨hg5, hle5⟩ := gok_push_inc hg3 (by simp [inst_targets])
          (by simp) hinc2
        cases hpatch : g5.patchSplit2 g.pc CodeGenError.FailOr with
        | error err =>
          simp only [hpatch] at h
          exact absurd h (by simp)
        | ok g6 =>
          simp only [hpatch] at h
          obtain ⟨hg6, hle6⟩ := gok_patchSplit2 hg5 hpatch
          cases hge2 : gen_expr g6 e2 with
          | error err =>
            simp only [hge2] at h
            exact absurd h (by simp)
          | ok g7 =>
            simp only [hge2] at h
            obtain ⟨hg7, hle7⟩ := ih2 g6 g7 hg6 hge2
            obtain ⟨hg8, hle8⟩ := gok_patchJump hg7 h
            exact ⟨hg8, by omega⟩

/-- Invariant preservation of the full generator, by the mutual
functional induction of `gen_expr`. -/
theorem gen_expr_gok :
    ∀ g ast, ∀ g', GOK g → gen_expr g ast = .ok g' →
      GOK g' ∧ g.pc ≤ g'.pc := by
  refine (gen_expr.mutual_induct
    (fun g ast => ∀ g', GOK g → gen_expr g ast = .ok g' →
      GOK g' ∧ g.pc ≤ g'.pc)
    (fun g es => ∀ g', GOK g → gen_seq g es = .ok g' →
      GOK g' ∧ g.pc ≤ g'.pc)
    (fun g e => ∀ g', GOK g → gen_question g e = .ok g' →
      GOK g' ∧ g.pc ≤ g'.pc)
    (fun g e => ∀ g', GOK g → gen_star g e = .ok g' →
      GOK g' ∧ g.pc ≤ g'.pc)
    (fun g e => ∀ g', GOK g → gen_plus g e = .ok g' →
      GOK g' ∧ g.pc ≤ g'.pc)
    (fun g e1 e2 => ∀ g', GOK g → gen_or g e1 e2 = .ok g' →
      GOK g' ∧ g.pc ≤ g'.pc)
    ?_ ?_ ?_ ?_ ?_ ?_ ?_ ?_ ?_ ?_ ?_ ?_ ?_ ?_ ?_ ?_ ?_ ?_).1
  · -- Char
    intro g c g' hg h
    rw [show gen_expr g (.Char c) = gen_char g c from by simp [gen_expr]] at h
    exact gok_push_inc hg (by simp [inst_targets]) (by simp) h
  · -- Period
    intro g g' hg h
    rw [show gen_expr g .Period = gen_period g from by simp [gen_expr]] at h
    exact gok_push_inc hg (by simp [inst_targets]) (by simp) h
  · -- Caret
    intro g g' hg h
    rw [show gen_expr g .Caret = gen_caret g from by simp [gen_expr]] at h
    exact gok_push_inc hg (by simp [inst_targets]) (by simp) h
  · -- Dollar
    intro g g' hg h
    rw [show gen_expr g .Dollar = gen_dollar g from by simp [gen_expr]] at h
    exact gok_push_inc hg (by simp [inst_targets]) (by simp) h
  · -- Or
    intro g e1 e2 ih g' hg h
    rw [show gen_expr g (.Or e1 e2) = gen_or g e1 e2
      from by simp [gen_expr]] at h
    exact ih g' hg h
  · -- Plus
    intro g e ih g' hg h
    rw [show gen_expr g (.Plus e) = gen_plus g e
      from by simp [gen_expr]] at h
    exact ih g' hg h
  · -- Star (Star e)
    intro g e ih g' hg h
    rw [show gen_expr g (.Star (.Star e)) = gen_expr g (.Star e)
      from by simp [gen_expr]] at h
    exact ih g' hg h
  · -- Star (Seq [Star e])
    intro g e ih g' hg h
    rw [show gen_expr g (.Star (.Seq [.Star e])) = gen_expr g (.Star e)
      from by simp [gen_expr]] at h
    exact ih g' hg h
  · -- Star, generic
    intro g e hne1 hne2 ih g' hg h
    rw [gen_expr_star_eq (fun x hx => hne1 x hx)
      (fun x hx => hne2 x hx) g] at h
    exact ih g' hg h
  · -- Question
    intro g e ih g' hg h
    rw [show gen_expr g (.Question e) = gen_question g e
      from by simp [gen_expr]] at h
    exact ih g' hg h
  · -- Seq
    intro g v ih g' hg h
    rw [show gen_expr g (.Seq v) = gen_seq g v from by simp [gen_expr]] at h
    exact ih g' hg h
  · -- gen_seq []
    intro g g' hg h
    rw [show gen_seq g [] = .ok g from by simp [gen_seq]] at h
    rw [← Except.ok.inj h]
    exact ⟨hg, le_refl _⟩
  · -- gen_seq cons, head ok
    intro g e rest g0 hge0 ihe ihrest g' hg h
    rw [show gen_seq g (e :: rest) =
      (match gen_expr g e with
        | .ok g1 => gen_seq g1 rest
        | .error err => .error err) from by simp [gen_seq]] at h
    rw [hge0] at h
    obtain ⟨hg1, hle1⟩ := ihe g0 hg hge0
    obtain ⟨hg2, hle2⟩ := ihrest g' hg1 h
    exact ⟨hg2, by omega⟩
  · -- gen_seq cons, head error
    intro g e rest err hge0 ihe g' hg h
    rw [show gen_seq g (e :: rest) =
      (match gen_expr g e with
        | .ok g1 => gen_seq g1 rest
        | .error err => .error err) from by simp [gen_seq]] at h
    rw [hge0] at h
    exact absurd h (by simp)
  · -- gen_question body
    intro g e ih
    exact gen_question_gok (fun g0 => ih g0)
  · -- gen_star body
    intro g e ih
    exact gen_star_gok (fun g0 => ih g0)
  · -- gen_plus body
    intro g e ih
    exact gen_plus_gok ih
  · -- gen_or body
    intro g e1 e2 ih1 ih2
    exact gen_or_gok (fun g0 => ih1 g0) (fun g0 => ih2 g0)

/-! ## Reference generator without star-collapse

Modelled from the spec: the spec describes the collapse of nested
zero-or-more wrapping as a normalization whose only effect is on code
size — "generating that instead of re-wrapping … it changes nothing
about which strings match".  To state that comparison, the following
generator is `gen_expr` with the collapse arms removed (every `Star`
child is re-wrapped via `gen_star_nc`), exactly the generation the spec
says the normalization replaces.  It exists only as the second side of
that refinement comparison. -/

mutual

def gen_expr_nc (g : Generator) (ast : AST) : Except CodeGenError Generator :=
  match ast with
  | .Char c => gen_char g c
  | .Period => gen_period g
  | .Caret => gen_caret g
  | .Dollar => gen_dollar g
  | .Or e1 e2 => gen_or_nc g e1 e2
  | .Plus e => gen_plus_nc g e
  | .Star e => gen_star_nc g e
  | .Question e => gen_question_nc g e
  | .Seq v => gen_seq_nc g v
termination_by (sizeOf ast, 1)

def gen_seq_nc (g : Generator) (es : List AST) :
    Except CodeGenError Generator :=
  match es with
  | [] => .ok g
  | e :: rest =>
    match gen_expr_nc g e with
    | .ok g' => gen_seq_nc g' rest
    | .error err => .error err
termination_by (sizeOf es, 0)

def gen_or_nc (g : Generator) (e1 e2 : AST) :
    Except CodeGenError Generator := do
  let split_addr := g.pc
  let g ← g.inc_pc
  let g := g.push (.Split g.pc 0)
  let g ← gen_expr_nc g e1
  let jmp_addr := g.pc
  let g := g.push (.Jump 0)
  let g ← g.inc_pc
  let g ← g.patchSplit2 split_addr .FailOr
  let g ← gen_expr_nc g e2
  g.patchJump jmp_addr .FailOr
termination_by (1 + sizeOf e1 + sizeOf e2, 0)

def gen_plus_nc (g : Generator) (e : AST) :
    Except CodeGenError Generator := do
  let l1 := g.pc
  let g ← gen_expr_nc g e
  let g ← g.inc_pc
  .ok (g.push (.Split l1 g.pc))
termination_by (1 + sizeOf e, 0)

def gen_star_nc (g : Generator) (e : AST) :
    Except CodeGenError Generator := do
  let l1 := g.pc
  let g ← g.inc_pc
  let g := g.push (.Split g.pc 0)
  let g ← gen_expr_nc g e
  let g ← g.inc_pc
  let g := g.push (.Jump l1)
  g.patchSplit2 l1 .FailStar
termination_by (1 + sizeOf e, 0)

def gen_question_nc (g : Generator) (e : AST) :
    Except CodeGenError Generator := do
  let split_addr := g.pc
  let g ← g.inc_pc
  let g := g.push (.Split g.pc 0)
  let g ← gen_expr_nc g e
  g.patchSplit2 split_addr .FailQuestion
termination_by (1 + sizeOf e, 0)

end

/-- `get_code` over the no-collapse generator. -/
def get_code_nc (ast : AST) : Except CodeGenError (List Instruction) := do
  let g ← gen_expr_nc ⟨0, []⟩ ast
  let g ← g.inc_pc
  .ok (g.push .Match).insts

/-! ## Nested-star families -/

/-- The parenthesised star-nesting family: `nestStarSeq k` is the AST
the parser produces for the star part of `((((a*)*)*)*)` at nesting
depth `k`. -/
def nestStarSeq : Nat → AST
  | 0 => .Star (.Char 'a')
  | k + 1 => .Star (.Seq [nestStarSeq k])

/-- Plain star-nesting: `iterStar k e` wraps `e` in `k` stars, as in
`a**…*`. -/
def iterStar : Nat → AST → AST
  | 0, e => e
  | k + 1, e => .Star (iterStar k e)

theorem gen_expr_nestStarSeq_succ (k : Nat) (g : Generator) :
    gen_expr g (nestStarSeq (k + 1)) = gen_expr g (nestStarSeq k) := by
  cases k with
  | zero => simp [nestStarSeq, gen_expr]
  | succ j => simp [nestStarSeq, gen_expr]

/-- The generated code of the parenthesised star-nesting family does
not depend on the nesting depth. -/
theorem gen_expr_nestStarSeq (k : Nat) (g : Generator) :
    gen_expr g (nestStarSeq k) = gen_expr g (nestStarSeq 0) := by
  induction k with
  | zero => rfl
  | succ j ih => rw [gen_expr_nestStarSeq_succ j g, ih]

theorem gen_expr_iterStar_succ (k : Nat) (g : Generator) :
    gen_expr g (iterStar (k + 2) (.Char 'a')) =
      gen_expr g (iterStar (k + 1) (.Char 'a')) := by
  cases k with
  | zero => simp [iterStar, gen_expr]
  | succ j => simp [iterStar, gen_expr]

/-- The generated code of `a*…*` does not depend on the number of
stars. -/
theorem gen_expr_iterStar (k : Nat) (g : Generator) :
    gen_expr g (iterStar (k + 1) (.Char 'a')) =
      gen_expr g (iterStar 1 (.Char 'a')) := by
  induction k with
  | zero => rfl
  | succ j ih => rw [gen_expr_iterStar_succ j g, ih]

/-! ## The four concrete programs of the nested-star claim -/

/-- Collapsed code of `((((a*)*)*)*)` (identical to that of `a*`). -/
def code_nest : List Instruction :=
  [.Split 1 3, .Char 'a', .Jump 0, .Match]

/-- No-collapse code of `((((a*)*)*)*)`. -/
def code_nest_nc : List Instruction :=
  [.Split 1 9, .Split 2 8, .Split 3 7, .Split 4 6, .Char 'a',
   .Jump 3, .Jump 2, .Jump 1, .Jump 0, .Match]

/-- Collapsed code of `a**b`. -/
def code_ab : List Instruction :=
  [.Split 1 3, .Char 'a', .Jump 0, .Char 'b', .Match]

/-- No-collapse code of `a**b`. -/
def code_ab_nc : List Instruction :=
  [.Split 1 5, .Split 2 4, .Char 'a', .Jump 1, .Jump 0, .Char 'b',
   .Match]

/-- Concrete parse of `((((a*)*)*)*)`. -/
theorem parse_of_nest :
    parse "((((a*)*)*)*)" = .ok (.Seq [.Seq [nestStarSeq 3]]) := rfl

/-- Concrete parse of `a**b`. -/
theorem parse_of_ab :
    parse "a**b" =
      .ok (.Seq [.Star (.Star (.Char 'a')), .Char 'b']) := rfl

/-- Concrete collapsed code of `((((a*)*)*)*)`. -/
theorem code_of_nest :
    get_code (.Seq [.Seq [nestStarSeq 3]]) = .ok code_nest := by
  simp [get_code, gen_code, gen_expr, gen_seq, gen_star, gen_char,
    nestStarSeq, code_nest, Generator.inc_pc, Generator.push,
    Generator.patchSplit2, safe_add, USIZE, Except.bind, bind]

/-- Concrete collapsed code of `a**b`. -/
theorem code_of_ab :
    get_code (.Seq [.Star (.Star (.Char 'a')), .Char 'b']) =
      .ok code_ab := by
  simp [get_code, gen_code, gen_expr, gen_seq, gen_star, gen_char,
    code_ab, Generator.inc_pc, Generator.push, Generator.patchSplit2,
    safe_add, USIZE, Except.bind, bind]

/-- Concrete no-collapse code of `((((a*)*)*)*)`. -/
theorem code_nc_of_nest :
    get_code_nc (.Seq [.Seq [nestStarSeq 3]]) = .ok code_nest_nc := by
  simp [get_code_nc, gen_expr_nc, gen_seq_nc, gen_star_nc, gen_char,
    nestStarSeq, code_nest_nc, Generator.inc_pc, Generator.push,
    Generator.patchSplit2, safe_add, USIZE, Except.bind, bind]

/-- Concrete no-collapse code of `a**b`. -/
theorem code_nc_of_ab :
    get_code_nc (.Seq [.Star (.Star (.Char 'a')), .Char 'b']) =
      .ok code_ab_nc := by
  simp [get_code_nc, gen_expr_nc, gen_seq_nc, gen_star_nc, gen_char,
    code_ab_nc, Generator.inc_pc, Generator.push, Generator.patchSplit2,
    safe_add, USIZE, Except.bind, bind]

/-! ## Languages of the nested-star programs -/

theorem drop_eq_cons_of_get {α : Type} :
    ∀ (l : List α) (sp : Nat) (c : α), l.get? sp = some c →
      l.drop sp = c :: l.drop (sp + 1) := by
  intro l
  induction l with
  | nil =>
    intro sp c h
    exact absurd h (by simp)
  | cons x rest ih =>
    intro sp c h
    cases sp with
    | zero =>
      simp only [List.get?] at h
      cases Option.some.inj h
      rfl
    | succ n => exact ih n c h

theorem get_of_drop_cons {α : Type} :
    ∀ (l : List α) (sp : Nat) (c : α) (rest : List α),
      l.drop sp = c :: rest → l.get? sp = some c := by
  intro l
  induction l with
  | nil =>
    intro sp c rest h
    rw [List.drop_nil] at h
    exact absurd h (by simp)
  | cons x tl ih =>
    intro sp c rest h
    cases sp with
    | zero =>
      cases List.cons.inj h |>.1
      rfl
    | succ n => exact ih n c rest h

/-- Whether a character list starts with `a^n b` for some `n`. -/
def startsAB : List Char → Bool
  | [] => false
  | c :: rest => if c = 'b' then true else if c = 'a' then startsAB rest
    else false

theorem startsAB_cons_a (l : List Char) :
    startsAB ('a' :: l) = startsAB l := by
  simp [startsAB]

theorem startsAB_cons_b (l : List Char) :
    startsAB ('b' :: l) = true := by
  simp [startsAB]

theorem code_ab_get {pc : Nat} {i : Instruction}
    (h : code_ab.get? pc = some i) :
    (pc = 0 ∧ i = .Split 1 3) ∨ (pc = 1 ∧ i = .Char 'a') ∨
    (pc = 2 ∧ i = .Jump 0) ∨ (pc = 3 ∧ i = .Char 'b') ∨
    (pc = 4 ∧ i = .Match) := by
  have h5 : pc < 5 := by
    by_contra hge
    rw [List.get?_eq_none.mpr (by simp [code_ab]; omega)] at h
    exact Option.noConfusion h
  interval_cases pc
  · exact .inl ⟨rfl, by simpa [code_ab] using h.symm⟩
  · exact .inr (.inl ⟨rfl, by simpa [code_ab] using h.symm⟩)
  · exact .inr (.inr (.inl ⟨rfl, by simpa [code_ab] using h.symm⟩))
  · exact .inr (.inr (.inr (.inl ⟨rfl, by simpa [code_ab] using h.symm⟩)))
  · exact .inr (.inr (.inr (.inr ⟨rfl, by simpa [code_ab] using h.symm⟩)))

theorem code_ab_nc_get {pc : Nat} {i : Instruction}
    (h : code_ab_nc.get? pc = some i) :
    (pc = 0 ∧ i = .Split 1 5) ∨ (pc = 1 ∧ i = .Split 2 4) ∨
    (pc = 2 ∧ i = .Char 'a') ∨ (pc = 3 ∧ i = .Jump 1) ∨
    (pc = 4 ∧ i = .Jump 0) ∨ (pc = 5 ∧ i = .Char 'b') ∨
    (pc = 6 ∧ i = .Match) := by
  have h7 : pc < 7 := by
    by_contra hge
    rw [List.get?_eq_none.mpr (by simp [code_ab_nc]; omega)] at h
    exact Option.noConfusion h
  interval_cases pc
  · exact .inl ⟨rfl, by simpa [code_ab_nc] using h.symm⟩
  · exact .inr (.inl ⟨rfl, by simpa [code_ab_nc] using h.symm⟩)
  · exact .inr (.inr (.inl ⟨rfl, by simpa [code_ab_nc] using h.symm⟩))
  · exact .inr (.inr (.inr (.inl ⟨rfl, by simpa [code_ab_nc] using h.symm⟩)))
  · exact .inr (.inr (.inr (.inr (.inl ⟨rfl,
      by simpa [code_ab_nc] using h.symm⟩))))
  · exact .inr (.inr (.inr (.inr (.inr (.inl ⟨rfl,
      by simpa [code_ab_nc] using h.symm⟩)))))
  · exact .inr (.inr (.inr (.inr (.inr (.inr ⟨rfl,
      by simpa [code_ab_nc] using h.symm⟩)))))

/-- Soundness of the collapsed `a**b` program: any accepting state is
the final `Match` or sits on a suffix starting with `a^n b`. -/
theorem code_ab_accepts_startsAB {line : List Char} :
    ∀ {pc sp}, Accepts code_ab line pc sp →
      pc = 4 ∨ startsAB (line.drop sp) = true := by
  intro pc sp h
  induction h with
  | char hpc hline hnext ih =>
    rcases code_ab_get hpc with ⟨rfl, hi⟩ | ⟨rfl, hi⟩ | ⟨rfl, hi⟩ |
      ⟨rfl, hi⟩ | ⟨rfl, hi⟩
    · exact absurd hi (by simp)
    · injection hi with hc
      subst hc
      right
      rw [drop_eq_cons_of_get line _ _ hline, startsAB_cons_a]
      rcases ih with h4 | hs
      · exact absurd h4 (by omega)
      · exact hs
    · exact absurd hi (by simp)
    · injection hi with hc
      subst hc
      right
      rw [drop_eq_cons_of_get line _ _ hline, startsAB_cons_b]
    · exact absurd hi (by simp)
  | anyChar hpc hline hnext ih =>
    rcases code_ab_get hpc with ⟨_, hi⟩ | ⟨_, hi⟩ | ⟨_, hi⟩ |
      ⟨_, hi⟩ | ⟨_, hi⟩ <;> exact absurd hi (by simp)
  | head hpc hnext ih =>
    rcases code_ab_get hpc with ⟨_, hi⟩ | ⟨_, hi⟩ | ⟨_, hi⟩ |
      ⟨_, hi⟩ | ⟨_, hi⟩ <;> exact absurd hi (by simp)
  | done hpc =>
    rcases code_ab_get hpc with ⟨_, hi⟩ | ⟨_, hi⟩ | ⟨_, hi⟩ |
      ⟨_, hi⟩ | ⟨rfl, hi⟩
    · exact absurd hi (by simp)
    · exact absurd hi (by simp)
    · exact absurd hi (by simp)
    · exact absurd hi (by simp)
    · exact .inl rfl
  | matchEnd hpc hend =>
    rcases code_ab_get hpc with ⟨_, hi⟩ | ⟨_, hi⟩ | ⟨_, hi⟩ |
      ⟨_, hi⟩ | ⟨_, hi⟩ <;> exact absurd hi (by simp)
  | jump hpc hnext ih =>
    rcases code_ab_get hpc with ⟨_, hi⟩ | ⟨_, hi⟩ | ⟨rfl, hi⟩ |
      ⟨_, hi⟩ | ⟨_, hi⟩
    · exact absurd hi (by simp)
    · exact absurd hi (by simp)
    · injection hi with ha
      subst ha
      rcases ih with h4 | hs
      · exact absurd h4 (by omega)
      · exact .inr hs
    · exact absurd hi (by simp)
    · exact absurd hi (by simp)
  | split1 hpc hnext ih =>
    rcases code_ab_get hpc with ⟨rfl, hi⟩ | ⟨_, hi⟩ | ⟨_, hi⟩ |
      ⟨_, hi⟩ | ⟨_, hi⟩
    · injection hi with ha hb
      subst ha
      rcases ih with h4 | hs
      · exact absurd h4 (by omega)
      · exact .inr hs
    · exact absurd hi (by simp)
    · exact absurd hi (by simp)
    · exact absurd hi (by simp)
    · exact absurd hi (by simp)
  | split2 hpc hnext ih =>
    rcases code_ab_get hpc with ⟨rfl, hi⟩ | ⟨_, hi⟩ | ⟨_, hi⟩ |
      ⟨_, hi⟩ | ⟨_, hi⟩
    · injection hi with ha hb
      subst hb
      rcases ih with h4 | hs
      · exact absurd h4 (by omega)
      · exact .inr hs
    · exact absurd hi (by simp)
    · exact absurd hi (by simp)
    · exact absurd hi (by simp)
    · exact absurd hi (by simp)

/-- Completeness of the collapsed `a**b` program. -/
theorem startsAB_accepts_code_ab {line : List Char} :
    ∀ (n sp : Nat), line.length - sp ≤ n →
      startsAB (line.drop sp) = true → Accepts code_ab line 0 sp := by
  intro n
  induction n with
  | zero =>
    intro sp hle hs
    rw [List.drop_eq_nil_iff.mpr (by omega)] at hs
    exact absurd hs (by simp [startsAB])
  | succ n ih =>
    intro sp hle hs
    cases hdrop : line.drop sp with
    | nil =>
      rw [hdrop] at hs
      exact absurd hs (by simp [startsAB])
    | cons c rest =>
      have hget : line.get? sp = some c := get_of_drop_cons line sp c rest hdrop
      have hs' : startsAB (c :: rest) = true := hdrop ▸ hs
      by_cases hb : c = 'b'
      · subst hb
        exact .split2 rfl (.char rfl hget (.done rfl))
      · have ha : c = 'a' := by
          by_contra hna
          rw [show startsAB (c :: rest) = false from by
            simp [startsAB, hb, hna]] at hs'
          exact absurd hs' (by simp)
        subst ha
        have hsp : sp < line.length := by
          by_contra hge
          rw [List.drop_eq_nil_of_le (by omega)] at hdrop
          exact List.noConfusion hdrop
        have hrest : rest = line.drop (sp + 1) := by
          have h2 := drop_eq_cons_of_get line sp 'a' hget
          rw [hdrop] at h2
          exact (List.cons.inj h2).2
        have hs2 : startsAB (line.drop (sp + 1)) = true := by
          rw [← hrest]
          rw [startsAB_cons_a] at hs'
          exact hs'
        have hacc := ih (sp + 1) (by omega) hs2
        exact .split1 rfl (.char rfl hget (.jump rfl hacc))

/-- Soundness of the no-collapse `a**b` program. -/
theorem code_ab_nc_accepts_startsAB {line : List Char} :
    ∀ {pc sp}, Accepts code_ab_nc line pc sp →
      pc = 6 ∨ startsAB (line.drop sp) = true := by
  intro pc sp h
  induction h with
  | char hpc hline hnext ih =>
    rcases code_ab_nc_get hpc with ⟨_, hi⟩ | ⟨_, hi⟩ | ⟨rfl, hi⟩ |
      ⟨_, hi⟩ | ⟨_, hi⟩ | ⟨rfl, hi⟩ | ⟨_, hi⟩
    · exact absurd hi (by simp)
    · exact absurd hi (by simp)
    · injection hi with hc
      subst hc
      right
      rw [drop_eq_cons_of_get line _ _ hline, startsAB_cons_a]
      rcases ih with h6 | hs
      · exact absurd h6 (by omega)
      · exact hs
    · exact absurd hi (by simp)
    · exact absurd hi (by simp)
    · injection hi with hc
      subst hc
      right
      rw [drop_eq_cons_of_get line _ _ hline, startsAB_cons_b]
    · exact absurd hi (by simp)
  | anyChar hpc hline hnext ih =>
    rcases code_ab_nc_get hpc with ⟨_, hi⟩ | ⟨_, hi⟩ | ⟨_, hi⟩ |
      ⟨_, hi⟩ | ⟨_, hi⟩ | ⟨_, hi⟩ | ⟨_, hi⟩ <;> exact absurd hi (by simp)
  | head hpc hnext ih =>
    rcases code_ab_nc_get hpc with ⟨_, hi⟩ | ⟨_, hi⟩ | ⟨_, hi⟩ |
      ⟨_, hi⟩ | ⟨_, hi⟩ | ⟨_, hi⟩ | ⟨_, hi⟩ <;> exact absurd hi (by simp)
  | done hpc =>
    rcases code_ab_nc_get hpc with ⟨_, hi⟩ | ⟨_, hi⟩ | ⟨_, hi⟩ |
      ⟨_, hi⟩ | ⟨_, hi⟩ | ⟨_, hi⟩ | ⟨rfl, hi⟩
    · exact absurd hi (by simp)
    · exact absurd hi (by simp)
    · exact absurd hi (by simp)
    · exact absurd hi (by simp)
    · exact absurd hi (by simp)
    · exact absurd hi (by simp)
    · exact .inl rfl
  | matchEnd hpc hend =>
    rcases code_ab_nc_get hpc with ⟨_, hi⟩ | ⟨_, hi⟩ | ⟨_, hi⟩ |
      ⟨_, hi⟩ | ⟨_, hi⟩ | ⟨_, hi⟩ | ⟨_, hi⟩ <;> exact absurd hi (by simp)
  | jump hpc hnext ih =>
    rcases code_ab_nc_get hpc with ⟨_, hi⟩ | ⟨_, hi⟩ | ⟨_, hi⟩ |
      ⟨rfl, hi⟩ | ⟨rfl, hi⟩ | ⟨_, hi⟩ | ⟨_, hi⟩
    · exact absurd hi (by simp)
    · exact absurd hi (by simp)
    · exact absurd hi (by simp)
    · injection hi with ha
      subst ha
      rcases ih with h6 | hs
      · exact absurd h6 (by omega)
      · exact .inr hs
    · injection hi with ha
      subst ha
      rcases ih with h6 | hs
      · exact absurd h6 (by omega)
      · exact .inr hs
    · exact absurd hi (by simp)
    · exact absurd hi (by simp)
  | split1 hpc hnext ih =>
    rcases code_ab_nc_get hpc with ⟨rfl, hi⟩ | ⟨rfl, hi⟩ | ⟨_, hi⟩ |
      ⟨_, hi⟩ | ⟨_, hi⟩ | ⟨_, hi⟩ | ⟨_, hi⟩
    · injection hi with ha hb
      subst ha
      rcases ih with h6 | hs
      · exact absurd h6 (by omega)
      · exact .inr hs
    · injection hi with ha hb
      subst ha
      rcases ih with h6 | hs
      · exact absurd h6 (by omega)
      · exact .inr hs
    · exact absurd hi (by simp)
    · exact absurd hi (by simp)
    · exact absurd hi (by simp)
    · exact absurd hi (by simp)
    · exact absurd hi (by simp)
  | split2 hpc hnext ih =>
    rcases code_ab_nc_get hpc with ⟨rfl, hi⟩ | ⟨rfl, hi⟩ | ⟨_, hi⟩ |
      ⟨_, hi⟩ | ⟨_, hi⟩ | ⟨_, hi⟩ | ⟨_, hi⟩
    · injection hi with ha hb
      subst hb
      rcases ih with h6 | hs
      · exact absurd h6 (by omega)
      · exact .inr hs
    · injection hi with ha hb
      subst hb
      rcases ih with h6 | hs
      · exact absurd h6 (by omega)
      · exact .inr hs
    · exact absurd hi (by simp)
    · exact absurd hi (by simp)
    · exact absurd hi (by simp)
    · exact absurd hi (by simp)
    · exact absurd hi (by simp)

/-- Completeness of the no-collapse `a**b` program, at the loop head. -/
theorem startsAB_accepts_code_ab_nc_1 {line : List Char} :
    ∀ (n sp : Nat), line.length - sp ≤ n →
      startsAB (line.drop sp) = true → Accepts code_ab_nc line 1 sp := by
  intro n
  induction n with
  | zero =>
    intro sp hle hs
    rw [List.drop_eq_nil_iff.mpr (by omega)] at hs
    exact absurd hs (by simp [startsAB])
  | succ n ih =>
    intro sp hle hs
    cases hdrop : line.drop sp with
    | nil =>
      rw [hdrop] at hs
      exact absurd hs (by simp [startsAB])
    | cons c rest =>
      have hget : line.get? sp = some c := get_of_drop_cons line sp c rest hdrop
      have hs' : startsAB (c :: rest) = true := hdrop ▸ hs
      by_cases hb : c = 'b'
      · subst hb
        exact .split2 rfl (.jump rfl (.split2 rfl
          (.char rfl hget (.done rfl))))
      · have ha : c = 'a' := by
          by_contra hna
          rw [show startsAB (c :: rest) = false from by
            simp [startsAB, hb, hna]] at hs'
          exact absurd hs' (by simp)
        subst ha
        have hsp : sp < line.length := by
          by_contra hge
          rw [List.drop_eq_nil_of_le (by omega)] at hdrop
          exact List.noConfusion hdrop
        have hrest : rest = line.drop (sp + 1) := by
          have h2 := drop_eq_cons_of_get line sp 'a' hget
          rw [hdrop] at h2
          exact (List.cons.inj h2).2
        have hs2 : startsAB (line.drop (sp + 1)) = true := by
          rw [← hrest]
          rw [startsAB_cons_a] at hs'
          exact hs'
        have hacc := ih (sp + 1) (by omega) hs2
        exact .split1 rfl (.char rfl hget (.jump rfl hacc))

/-- The collapsed and no-collapse programs of `a**b` accept the same
lines. -/
theorem code_ab_lang_iff (line : List Char) :
    Accepts code_ab line 0 0 ↔ Accepts code_ab_nc line 0 0 := by
  constructor
  · intro h
    rcases code_ab_accepts_startsAB h with h0 | hs
    · exact absurd h0 (by omega)
    · exact .split1 rfl (startsAB_accepts_code_ab_nc_1 line.length 0
        (by omega) hs)
  · intro h
    rcases code_ab_nc_accepts_startsAB h with h0 | hs
    · exact absurd h0 (by omega)
    · exact startsAB_accepts_code_ab line.length 0 (by omega) hs

/-- The collapsed and no-collapse programs of `((((a*)*)*)*)` accept
the same lines (both accept every line, as `a*` matches the empty
prefix). -/
theorem code_nest_lang_iff (line : List Char) :
    Accepts code_nest line 0 0 ↔ Accepts code_nest_nc line 0 0 :=
  iff_of_true (.split2 rfl (.done rfl)) (.split2 rfl (.done rfl))

/-! ## Claim theorems -/

/-- C2: for every program (in particular every compiled pattern) and
every input, whenever the depth-first strategy and the breadth-first
strategy both return a result, the two results carry the same boolean
`matched` verdict.  This holds unconditionally — the head-anchor /
mixed-branch ambiguity of the spec affects only the `should_be_head`
flag, not `matched` — so it holds in particular for the inputs without
that ambiguity, as the claim states. -/
theorem eval_depth_width_same_matched (inst : List Instruction)
    (line : List Char) (f1 f2 : Nat) (r1 r2 : EvalResult)
    (h1 : eval inst line true f1 = some (.ok r1))
    (h2 : eval inst line false f2 = some (.ok r2)) :
    r1.matched = r2.matched := by
  simp only [eval, eval_width, if_true] at h1 h2
  rw [if_neg (by simp)] at h2
  rw [Bool.eq_iff_iff]
  rw [eval_depth_matched_iff h1,
    eval_width_loop_matched_iff f2 0 0 false [] r2 h2]
  unfold AcceptsState
  simp

/-- C2 witness: both strategies on the program of `a` and the line `a`
return a result, and the verdicts agree. -/
theorem eval_depth_width_same_matched_witness :
    eval [Instruction.Char 'a', .Match] ['a'] true 10 =
      some (.ok .mkMatched) ∧
    eval [Instruction.Char 'a', .Match] ['a'] false 10 =
      some (.ok .mkMatched) ∧
    EvalResult.mkMatched.matched = EvalResult.mkMatched.matched :=
  ⟨by decide, by decide,
   eval_depth_width_same_matched [Instruction.Char 'a', .Match] ['a']
     10 10 .mkMatched .mkMatched (by decide) (by decide)⟩

/-- C9: for every program, input, fuel and starting state, the
breadth-first evaluator never returns the error `InvalidContext`:
every pop of the continuation stack is performed either after an
explicit non-emptiness check or immediately after a push, so the
empty-pop error branch of `pop_ctx` is unreachable. -/
theorem eval_width_never_invalid_context (inst : List Instruction)
    (line : List Char) (fuel : Nat) :
    eval inst line false fuel ≠ some (.error .InvalidContext) := by
  simp only [eval, eval_width]
  rw [if_neg (by simp)]
  exact eval_width_loop_ne_invalid_context inst line fuel 0 0 false []

/-- C9 witness: a concrete breadth-first run, where the theorem applies
directly. -/
theorem eval_width_never_invalid_context_witness :
    eval [Instruction.Match] [] false 5 ≠ some (.error .InvalidContext) :=
  eval_width_never_invalid_context [Instruction.Match] [] 5

/-- A successful evaluation attempt of `match_line` at start offset
`i`: the depth-first evaluation of the compiled code on the suffix
`line[i..]` succeeds with a result that either does not require the
head anchor or has `i = 0`. -/
def offset_success (code : List Instruction) (line : List Char)
    (fuel i : Nat) : Prop :=
  ∃ r, eval code (line.drop i) true fuel = some (.ok r) ∧
    r.matched = true ∧ (r.should_be_head = false ∨ i = 0)

theorem match_line_loop_iff {code : List Instruction} {line : List Char}
    {fuel : Nat} :
    ∀ iter i b, match_line_loop code line fuel i iter = some (.ok b) →
      iter = line.drop i →
      (b = true ↔ ∃ k, i ≤ k ∧ k < line.length ∧
        offset_success code line fuel k) := by
  intro iter
  induction iter with
  | nil =>
    intro i b h heq
    cases Except.ok.inj (Option.some.inj h)
    have hlen : line.length ≤ i := by
      have h2 := heq.symm
      rw [List.drop_eq_nil_iff] at h2
      exact h2
    constructor
    · intro hb
      exact absurd hb (by simp)
    · rintro ⟨k, hik, hk, _⟩
      omega
  | cons c rest ih =>
    intro i b h heq
    have hlt : i < line.length := by
      by_contra hge
      rw [List.drop_eq_nil_of_le (by omega)] at heq
      exact List.noConfusion heq
    rw [match_line_loop] at h
    cases he : eval code (line.drop i) true fuel with
    | none =>
      simp only [he] at h
      exact absurd h (by simp)
    | some o =>
      cases o with
      | error e =>
        simp only [he] at h
        exact absurd (Option.some.inj h) (by simp)
      | ok result =>
        simp only [he] at h
        have hrest : rest = line.drop (i + 1) := by
          have h2 := List.tail_drop line i
          rw [← heq] at h2
          simpa using h2
        by_cases hm : result.matched
        · rw [if_pos hm] at h
          by_cases hcond : (!result.should_be_head || i == 0) = true
          · rw [if_pos hcond] at h
            cases Except.ok.inj (Option.some.inj h)
            simp only [true_iff]
            refine ⟨i, le_refl i, hlt, result, he, hm, ?_⟩
            rcases Bool.or_eq_true_iff.mp hcond with hx | hx
            · exact .inl (by simpa using hx)
            · exact .inr (by simpa using hx)
          · rw [if_neg hcond] at h
            rw [ih (i + 1) b h hrest]
            have hbad : ¬ offset_success code line fuel i := by
              rintro ⟨r, hr, hrm, hrh⟩
              rw [he] at hr
              cases Except.ok.inj (Option.some.inj hr)
              apply hcond
              rcases hrh with hx | hx
              · simp [hx]
              · simp [hx]
            constructor
            · rintro ⟨k, hik, hk, hsucc⟩
              exact ⟨k, by omega, hk, hsucc⟩
            · rintro ⟨k, hik, hk, hsucc⟩
              rcases Nat.eq_or_lt_of_le hik with rfl | hik'
              · exact absurd hsucc hbad
              · exact ⟨k, by omega, hk, hsucc⟩
        · rw [if_neg hm] at h
          rw [ih (i + 1) b h hrest]
          have hbad : ¬ offset_success code line fuel i := by
            rintro ⟨r, hr, hrm, _⟩
            rw [he] at hr
            cases Except.ok.inj (Option.some.inj hr)
            exact hm hrm
          constructor
          · rintro ⟨k, hik, hk, hsucc⟩
            exact ⟨k, by omega, hk, hsucc⟩
          · rintro ⟨k, hik, hk, hsucc⟩
            rcases Nat.eq_or_lt_of_le hik with rfl | hik'
            · exact absurd hsucc hbad
            · exact ⟨k, by omega, hk, hsucc⟩

theorem match_line_loop_first {code : List Instruction} {line : List Char}
    {fuel : Nat} :
    ∀ iter i, iter = line.drop i →
      ∀ k, i ≤ k → k < line.length →
      (∀ j, i ≤ j → j < k →
        ∃ r, eval code (line.drop j) true fuel = some (.ok r) ∧
          ¬(r.matched = true ∧ (r.should_be_head = false ∨ j = 0))) →
      offset_success code line fuel k →
      match_line_loop code line fuel i iter = some (.ok true) := by
  intro iter
  induction iter with
  | nil =>
    intro i heq k hik hk _ _
    have : line.length ≤ i := by
      have h2 := heq.symm
      rw [List.drop_eq_nil_iff] at h2
      exact h2
    omega
  | cons c rest ih =>
    intro i heq k hik hk hprev hsucc
    have hrest : rest = line.drop (i + 1) := by
      have h2 := List.tail_drop line i
      rw [← heq] at h2
      simpa using h2
    rw [match_line_loop]
    rcases Nat.eq_or_lt_of_le hik with rfl | hik'
    · rcases hsucc with ⟨r, hr, hrm, hrh⟩
      simp only [hr]
      rw [if_pos hrm]
      rw [if_pos ?side]
      case side =>
        rcases hrh with hx | hx
        · simp [hx]
        · simp [hx]
    · rcases hprev i (le_refl i) hik' with ⟨r, hr, hbad⟩
      simp only [hr]
      by_cases hm : r.matched
      · rw [if_pos hm]
        have hcond : ¬ ((!r.should_be_head || i == 0) = true) := by
          intro hx
          apply hbad
          refine ⟨hm, ?_⟩
          rcases Bool.or_eq_true_iff.mp hx with hy | hy
          · exact .inl (by simpa using hy)
          · exact .inr (by simpa using hy)
        rw [if_neg hcond]
        exact ih (i + 1) hrest k (by omega) hk
          (fun j h1 h2 => hprev j (by omega) h2) hsucc
      · rw [if_neg hm]
        exact ih (i + 1) hrest k (by omega) hk
          (fun j h1 h2 => hprev j (by omega) h2) hsucc

/-- C3: for every pattern that compiles and every line, when
`match_line` returns a boolean, it returns `true` iff there is a start
offset `i` into the line at which evaluation of the compiled program on
the suffix succeeds with a result that either does not require the head
anchor or has `i = 0`; moreover the scan returns at the first such
success — once every earlier offset has evaluated without a valid
success, a valid success at offset `k` makes `match_line` return
`true` regardless of anything at later offsets. -/
theorem match_line_iff_offset_success (expr line : String) (fuel : Nat)
    (ast : AST) (code : List Instruction)
    (hp : parse expr = .ok ast) (hc : get_code ast = .ok code) :
    (∀ b, match_line expr line fuel = some (.ok b) →
      (b = true ↔ ∃ i < line.toList.length,
        offset_success code line.toList fuel i)) ∧
    (∀ k < line.toList.length,
      (∀ j < k, ∃ r, eval code (line.toList.drop j) true fuel =
          some (.ok r) ∧
          ¬(r.matched = true ∧ (r.should_be_head = false ∨ j = 0))) →
      offset_success code line.toList fuel k →
      match_line expr line fuel = some (.ok true)) := by
  constructor
  · intro b h
    rw [match_line_eq_loop hp hc] at h
    cases hl : match_line_loop code line.toList fuel 0 line.toList with
    | none =>
      simp only [hl] at h
      exact absurd h (by simp)
    | some o =>
      cases o with
      | error e =>
        simp only [hl] at h
        exact absurd (Option.some.inj h) (by simp)
      | ok b' =>
        simp only [hl] at h
        cases Except.ok.inj (Option.some.inj h)
        have := match_line_loop_iff line.toList 0 b hl (by simp)
        rw [this]
        constructor
        · rintro ⟨k, _, hk, hs⟩
          exact ⟨k, hk, hs⟩
        · rintro ⟨k, hk, hs⟩
          exact ⟨k, Nat.zero_le k, hk, hs⟩
  · intro k hk hprev hsucc
    rw [match_line_eq_loop hp hc]
    rw [match_line_loop_first line.toList 0 (by simp) k (Nat.zero_le k) hk
      (fun j _ h2 => hprev j h2) hsucc]

/-- Concrete code of `a`. -/
theorem code_of_a :
    get_code (.Seq [.Char 'a']) = .ok [.Char 'a', .Match] := by
  simp [get_code, gen_code, gen_expr, gen_seq, gen_char,
    Generator.inc_pc, Generator.push, safe_add, USIZE, Except.bind, bind]

/-- C3 witness: the pattern `a` on the line `ba` — offset 0 fails,
offset 1 succeeds, so `match_line` returns `true`. -/
theorem match_line_iff_offset_success_witness :
    match_line "a" "ba" 10 = some (.ok true) :=
  (match_line_iff_offset_success "a" "ba" 10 (.Seq [.Char 'a'])
      [.Char 'a', .Match] rfl code_of_a).2 1 (by decide)
    (by
      intro j hj
      have hj0 : j = 0 := by omega
      subst hj0
      exact ⟨.unmatched, by decide, by decide⟩)
    ⟨.mkMatched, by decide, by decide, .inl (by decide)⟩

/-- Whether a character list starts with `abc`. -/
def startsAbc : List Char → Bool
  | c1 :: c2 :: c3 :: _ => c1 = 'a' && c2 = 'b' && c3 = 'c'
  | _ => false

theorem startsAbc_ne1 {c1 : Char} (h : ¬ c1 = 'a') (l : List Char) :
    startsAbc (c1 :: l) = false := by
  cases l with
  | nil => rfl
  | cons c2 l =>
    cases l with
    | nil => rfl
    | cons c3 l => simp [startsAbc, h]

theorem startsAbc_ne2 {c1 c2 : Char} (h : ¬ c2 = 'b') (l : List Char) :
    startsAbc (c1 :: c2 :: l) = false := by
  cases l with
  | nil => rfl
  | cons c3 l => simp [startsAbc, h]

theorem startsAbc_ne3 {c1 c2 c3 : Char} (h : ¬ c3 = 'c') (l : List Char) :
    startsAbc (c1 :: c2 :: c3 :: l) = false := by
  simp [startsAbc, h]

/-- Concrete parse of `^abc`. -/
theorem parse_of_caret_abc :
    parse "^abc" =
      .ok (.Seq [.Caret, .Char 'a', .Char 'b', .Char 'c']) := rfl

/-- Concrete parse of `^^abc`. -/
theorem parse_of_caret_caret_abc :
    parse "^^abc" =
      .ok (.Seq [.Caret, .Caret, .Char 'a', .Char 'b', .Char 'c']) := rfl

/-- Concrete code of `^abc`. -/
theorem code_of_caret_abc :
    get_code (.Seq [.Caret, .Char 'a', .Char 'b', .Char 'c']) =
      .ok [.Head, .Char 'a', .Char 'b', .Char 'c', .Match] := by
  simp [get_code, gen_code, gen_expr, gen_seq, gen_char, gen_caret,
    Generator.inc_pc, Generator.push, safe_add, USIZE, Except.bind, bind]

/-- Concrete code of `^^abc`. -/
theorem code_of_caret_caret_abc :
    get_code (.Seq [.Caret, .Caret, .Char 'a', .Char 'b', .Char 'c']) =
      .ok [.Head, .Head, .Char 'a', .Char 'b', .Char 'c', .Match] := by
  simp [get_code, gen_code, gen_expr, gen_seq, gen_char, gen_caret,
    Generator.inc_pc, Generator.push, safe_add, USIZE, Except.bind, bind]

/-- Depth-first evaluation of the `^abc` program on an arbitrary
suffix: it returns `matched_if_head` exactly when the suffix starts
with `abc` (the `Head` assertion always holds at the evaluation start,
where `sp = 0`). -/
theorem eval_code_caret_abc (l : List Char) (fuel : Nat) (h : 6 ≤ fuel) :
    eval_depth [.Head, .Char 'a', .Char 'b', .Char 'c', .Match] l
        fuel 0 0 false =
      some (.ok (if startsAbc l then .matched_if_head else .unmatched)) := by
  obtain ⟨k, rfl⟩ : ∃ k, fuel = k + 6 := ⟨fuel - 6, by omega⟩
  rcases l with _ | ⟨c1, l⟩
  · simp [eval_depth, startsAbc, safe_add, USIZE]
  by_cases h1 : c1 = 'a'
  case neg =>
    have h1' : ¬('a' = c1) := fun e => h1 e.symm
    simp [eval_depth, startsAbc_ne1 h1, safe_add, USIZE, h1']
  subst h1
  rcases l with _ | ⟨c2, l⟩
  · simp [eval_depth, startsAbc, safe_add, USIZE]
  by_cases h2 : c2 = 'b'
  case neg =>
    have h2' : ¬('b' = c2) := fun e => h2 e.symm
    simp [eval_depth, startsAbc_ne2 h2, safe_add, USIZE, h2']
  subst h2
  rcases l with _ | ⟨c3, l⟩
  · simp [eval_depth, startsAbc, safe_add, USIZE]
  by_cases h3 : c3 = 'c'
  case neg =>
    have h3' : ¬('c' = c3) := fun e => h3 e.symm
    simp [eval_depth, startsAbc_ne3 h3, safe_add, USIZE, h3']
  subst h3
  simp [eval_depth, startsAbc, safe_add, USIZE]

/-- Depth-first evaluation of the `^^abc` program: identical results to
the `^abc` program on every suffix. -/
theorem eval_code_caret_caret_abc (l : List Char) (fuel : Nat)
    (h : 6 ≤ fuel) :
    eval_depth [.Head, .Head, .Char 'a', .Char 'b', .Char 'c', .Match] l
        fuel 0 0 false =
      some (.ok (if startsAbc l then .matched_if_head else .unmatched)) := by
  obtain ⟨k, rfl⟩ : ∃ k, fuel = k + 6 := ⟨fuel - 6, by omega⟩
  rcases l with _ | ⟨c1, l⟩
  · simp [eval_depth, startsAbc, safe_add, USIZE]
  by_cases h1 : c1 = 'a'
  case neg =>
    have h1' : ¬('a' = c1) := fun e => h1 e.symm
    simp [eval_depth, startsAbc_ne1 h1, safe_add, USIZE, h1']
  subst h1
  rcases l with _ | ⟨c2, l⟩
  · simp [eval_depth, startsAbc, safe_add, USIZE]
  by_cases h2 : c2 = 'b'
  case neg =>
    have h2' : ¬('b' = c2) := fun e => h2 e.symm
    simp [eval_depth, startsAbc_ne2 h2, safe_add, USIZE, h2']
  subst h2
  rcases l with _ | ⟨c3, l⟩
  · simp [eval_depth, startsAbc, safe_add, USIZE]
  by_cases h3 : c3 = 'c'
  case neg =>
    have h3' : ¬('c' = c3) := fun e => h3 e.symm
    simp [eval_depth, startsAbc_ne3 h3, safe_add, USIZE, h3']
  subst h3
  simp [eval_depth, startsAbc, safe_add, USIZE]

/-- Two programs with pointwise equal evaluations drive the
`match_line` scan to the same outcome. -/
theorem match_line_loop_congr {code1 code2 : List Instruction}
    {line : List Char} {fuel : Nat}
    (h : ∀ i, eval code1 (line.drop i) true fuel =
      eval code2 (line.drop i) true fuel) :
    ∀ iter i, match_line_loop code1 line fuel i iter =
      match_line_loop code2 line fuel i iter := by
  intro iter
  induction iter with
  | nil => intro i; rfl
  | cons c rest ih =>
    intro i
    rw [match_line_loop, match_line_loop, h i, ih (i + 1)]

/-- C1: with pattern `^abc`, `match_line` reports a match on `abcdef`
and no match on `123abc`; and `^^abc` produces the same `match_line`
outcome as `^abc` on every line (whenever the fuel covers the six
instructions of the longer program, which both straight-line programs
then complete within). -/
theorem match_line_caret_abc :
    match_line "^abc" "abcdef" 10 = some (.ok true) ∧
    match_line "^abc" "123abc" 10 = some (.ok false) ∧
    ∀ (line : String) (fuel : Nat), 6 ≤ fuel →
      match_line "^^abc" line fuel = match_line "^abc" line fuel := by
  refine ⟨?_, ?_, ?_⟩
  · rw [match_line_eq_loop parse_of_caret_abc code_of_caret_abc]
    decide
  · rw [match_line_eq_loop parse_of_caret_abc code_of_caret_abc]
    decide
  · intro line fuel hfuel
    rw [match_line_eq_loop parse_of_caret_caret_abc code_of_caret_caret_abc,
      match_line_eq_loop parse_of_caret_abc code_of_caret_abc]
    rw [match_line_loop_congr (fun i => ?_) line.toList 0]
    rw [show ∀ inst l, eval inst l true fuel = eval_depth inst l fuel 0 0 false
      from fun _ _ => by simp [eval],
      show ∀ inst l, eval inst l true fuel = eval_depth inst l fuel 0 0 false
      from fun _ _ => by simp [eval]]
    rw [eval_code_caret_caret_abc _ fuel hfuel,
      eval_code_caret_abc _ fuel hfuel]

/-- C1 witness: the ∀-line part applied at the line `abc` with fuel 6,
together with the two concrete scans. -/
theorem match_line_caret_abc_witness :
    match_line "^^abc" "abc" 6 = match_line "^abc" "abc" 6 :=
  match_line_caret_abc.2.2 "abc" 6 (by decide)

/-- C8: for every AST on which code generation succeeds, every `Jump`
and `Split` operand of the returned program is a valid in-bounds
address (strictly less than the program length), and exactly one
`Match` instruction occurs, appended as the last instruction. -/
theorem get_code_wellformed (ast : AST) (code : List Instruction)
    (h : get_code ast = .ok code) :
    (∀ ins ∈ code, ∀ t ∈ inst_targets ins, t < code.length) ∧
    code.count .Match = 1 ∧
    code.getLast? = some .Match := by
  unfold get_code gen_code at h
  simp only [bind, Except.bind] at h
  cases hge : gen_expr ⟨0, []⟩ ast with
  | error err =>
    simp only [hge] at h
    exact absurd h (by simp)
  | ok g1 =>
    simp only [hge] at h
    have hg1 : GOK g1 ∧ (0 : Nat) ≤ g1.pc :=
      gen_expr_gok ⟨0, []⟩ ast g1 ⟨rfl, by simp⟩ hge
    cases hinc : g1.inc_pc with
    | error err =>
      simp only [hinc] at h
      exact absurd h (by simp)
    | ok g2 =>
      simp only [hinc] at h
      have hd := inc_pc_ok hinc
      subst hd
      have hcode : code = g1.insts ++ [.Match] := (Except.ok.inj h).symm
      subst hcode
      have hlen : g1.pc = g1.insts.length := hg1.1.1
      refine ⟨?_, ?_, ?_⟩
      · intro ins hins t htar
        rcases List.mem_append.mp hins with h1 | h1
        · have := (hg1.1.2 ins h1).1 t htar
          simp only [List.length_append, List.length_singleton]
          omega
        · rcases List.mem_singleton.mp h1 with rfl
          simp [inst_targets] at htar
      · rw [List.count_append]
        have h0 : g1.insts.count Instruction.Match = 0 := by
          rw [List.count_eq_zero]
          intro hmem
          exact (hg1.1.2 _ hmem).2 rfl
        rw [h0]
        rfl
      · exact List.getLast?_concat _

/-- C8 witness: the invariants hold for the compiled code of `a*`. -/
theorem get_code_wellformed_witness :
    (∀ ins ∈ ([.Split 1 3, .Char 'a', .Jump 0, .Match] :
        List Instruction),
      ∀ t ∈ inst_targets ins,
        t < ([.Split 1 3, .Char 'a', .Jump 0, .Match] :
          List Instruction).length) ∧
    ([.Split 1 3, .Char 'a', .Jump 0, .Match] :
      List Instruction).count .Match = 1 ∧
    ([.Split 1 3, .Char 'a', .Jump 0, .Match] :
      List Instruction).getLast? = some .Match :=
  get_code_wellformed (.Seq [.Star (.Char 'a')]) _ code_of_a_star

/-- C5: `((((a*)*)*)*)` and `a**b` compile; the first matches
`aaaaaaaaa` and the empty string, the second matches `b` and
`aaaaaaaaab`; the generated code size is not super-linear (it is
constant — 4 and 5 instructions — in the nesting depth, by the two
family equations); and the collapse of nested zero-or-more wrapping
changes nothing about which strings match: for both patterns the code
generated with the collapse and the code generated by plain re-wrapping
accept exactly the same lines. -/
theorem nested_star_collapse :
    parse "((((a*)*)*)*)" = .ok (.Seq [.Seq [nestStarSeq 3]]) ∧
    parse "a**b" = .ok (.Seq [.Star (.Star (.Char 'a')), .Char 'b']) ∧
    get_code (.Seq [.Seq [nestStarSeq 3]]) = .ok code_nest ∧
    get_code (.Seq [.Star (.Star (.Char 'a')), .Char 'b']) =
      .ok code_ab ∧
    do_matching "((((a*)*)*)*)" "aaaaaaaaa" true 200 = some (.ok true) ∧
    do_matching "((((a*)*)*)*)" "" true 200 = some (.ok true) ∧
    do_matching "a**b" "b" true 200 = some (.ok true) ∧
    do_matching "a**b" "aaaaaaaaab" true 200 = some (.ok true) ∧
    code_nest.length = 4 ∧ code_ab.length = 5 ∧
    (∀ k g, gen_expr g (nestStarSeq k) = gen_expr g (nestStarSeq 0)) ∧
    (∀ k g, gen_expr g (iterStar (k + 1) (.Char 'a')) =
      gen_expr g (iterStar 1 (.Char 'a'))) ∧
    (∀ line, Accepts code_nest line 0 0 ↔
      Accepts code_nest_nc line 0 0) ∧
    (∀ line, Accepts code_ab line 0 0 ↔ Accepts code_ab_nc line 0 0) := by
  refine ⟨parse_of_nest, parse_of_ab, code_of_nest, code_of_ab,
    ?_, ?_, ?_, ?_, rfl, rfl, gen_expr_nestStarSeq, gen_expr_iterStar,
    code_nest_lang_iff, code_ab_lang_iff⟩
  · rw [do_matching_eq_eval parse_of_nest code_of_nest]
    decide
  · rw [do_matching_eq_eval parse_of_nest code_of_nest]
    decide
  · rw [do_matching_eq_eval parse_of_ab code_of_ab]
    decide
  · rw [do_matching_eq_eval parse_of_ab code_of_ab]
    decide

/-- C6: parsing each of `+b`, `*b`, `?b` returns `NoPrev` carrying the
quantifier's position 0 (the quantifier pops the last node of the
current sequence, which is empty), and `|b` also fails to parse with a
`ParseError`. -/
theorem parse_dangling_quantifier_noprev :
    parse "+b" = .error (.NoPrev 0) ∧
    parse "*b" = .error (.NoPrev 0) ∧
    parse "?b" = .error (.NoPrev 0) ∧
    ∃ e, parse "|b" = .error e :=
  ⟨rfl, rfl, rfl, ⟨.NoPrev 0, rfl⟩⟩

/-- C4 counterexample: the claim says a compiled `a$b` demands a
further character after the end-of-input assertion, hence cannot match
the line `a`; but the evaluator returns a match as soon as `MatchEnd`
observes end-of-input, never demanding the trailing `b`, so `a$b`
does match the line `a`. -/
theorem match_line_dollar_b_matches_a :
    match_line "a$b" "a" 100 = some (.ok true) := by
  rw [match_line_eq_loop parse_of_a_dollar_b code_of_a_dollar_b]
  decide

/-- C4 amended: `a$` matches the line `a` and not `ab`; `$` compiles to
the `MatchEnd` end-of-input assertion and `a$b` is preserved literally
as `[Char a, MatchEnd, Char b, Match]`; but once `MatchEnd` holds the
evaluation terminates as a match, so `a$b` matches the line `a` rather
than demanding a further character after the assertion. -/
theorem match_line_end_anchor :
    match_line "a$" "a" 100 = some (.ok true) ∧
    match_line "a$" "ab" 100 = some (.ok false) ∧
    parse "a$" = .ok (.Seq [.Char 'a', .Dollar]) ∧
    get_code (.Seq [.Char 'a', .Dollar]) =
      .ok [.Char 'a', .MatchEnd, .Match] ∧
    parse "a$b" = .ok (.Seq [.Char 'a', .Dollar, .Char 'b']) ∧
    get_code (.Seq [.Char 'a', .Dollar, .Char 'b']) =
      .ok [.Char 'a', .MatchEnd, .Char 'b', .Match] ∧
    match_line "a$b" "a" 100 = some (.ok true) ∧
    match_line "a$b" "ab" 100 = some (.ok false) := by
  refine ⟨?_, ?_, parse_of_a_dollar, code_of_a_dollar, parse_of_a_dollar_b,
    code_of_a_dollar_b, ?_, ?_⟩
  · rw [match_line_eq_loop parse_of_a_dollar code_of_a_dollar]; decide
  · rw [match_line_eq_loop parse_of_a_dollar code_of_a_dollar]; decide
  · rw [match_line_eq_loop parse_of_a_dollar_b code_of_a_dollar_b]; decide
  · rw [match_line_eq_loop parse_of_a_dollar_b code_of_a_dollar_b]; decide

/-- C7: from any parser state in the character state, a backslash
starts an escape that consumes exactly the next character `c`: when `c`
is in the fixed escapable set the parser emits it as a literal
character node and continues two characters later, otherwise the parse
fails with `InvalidEscape` carrying the position and character of `c`. -/
theorem parse_backslash_escape (st : ParserSt) (i : Nat) (c : Char)
    (rest : List Char) (hstate : st.state = .ch) :
    (c ∈ ['\\', '(', ')', '|', '+', '*', '?'] →
      parse_loop st i ('\\' :: c :: rest) =
        parse_loop { st with seq := st.seq ++ [AST.Char c], state := .ch }
          (i + 2) rest) ∧
    (c ∉ ['\\', '(', ')', '|', '+', '*', '?'] →
      parse_loop st i ('\\' :: c :: rest) =
        .error (.InvalidEscape (i + 1) c)) := by
  rcases st with ⟨seq, seq_or, stack, state⟩
  cases hstate
  constructor
  · intro hmem
    fin_cases hmem <;> rfl
  · intro hmem
    simp only [List.mem_cons, List.not_mem_nil, or_false] at hmem
    push_neg at hmem
    obtain ⟨h1, h2, h3, h4, h5, h6, h7⟩ := hmem
    have he : parse_escape (i + 1) c = .error (.InvalidEscape (i + 1) c) := by
      unfold parse_escape
      split <;> simp_all
    show (match parse_step ⟨seq, seq_or, stack, .ch⟩ i '\\' with
      | .ok st' => parse_loop st' (i + 1) (c :: rest)
      | .error e => .error e) = _
    have hs1 : parse_step ⟨seq, seq_or, stack, .ch⟩ i '\\' =
        .ok ⟨seq, seq_or, stack, .escape⟩ := rfl
    rw [hs1]
    show (match parse_step ⟨seq, seq_or, stack, .escape⟩ (i + 1) c with
      | .ok st' => parse_loop st' (i + 2) rest
      | .error e => .error e) = _
    have hs2 : parse_step ⟨seq, seq_or, stack, .escape⟩ (i + 1) c =
        .error (.InvalidEscape (i + 1) c) := by
      show (match parse_escape (i + 1) c with
        | .ok ast =>
          Except.ok (ParserSt.mk (seq ++ [ast]) seq_or stack PState.ch)
        | .error e => .error e) = _
      rw [he]
    rw [hs2]

/-- C7 witness: the theorem applied at the initial parser state, for
the escapable `*` and the non-escapable `a`. -/
theorem parse_backslash_escape_witness :
    parse_loop ⟨[], [], [], .ch⟩ 0 ['\\', '*'] =
      parse_loop ⟨[AST.Char '*'], [], [], .ch⟩ 2 [] ∧
    parse_loop ⟨[], [], [], .ch⟩ 0 ['\\', 'a'] =
      .error (.InvalidEscape 1 'a') :=
  ⟨(parse_backslash_escape ⟨[], [], [], .ch⟩ 0 '*' [] rfl).1 (by decide),
   (parse_backslash_escape ⟨[], [], [], .ch⟩ 0 'a' [] rfl).2 (by decide)⟩

/-- C10: for every pattern that compiles, `match_line` on the empty
line returns `false` for every fuel — in particular for fuel 0, under
which any evaluation attempt would have been visible as fuel
exhaustion, so no evaluation is attempted: the offset iteration over
the line's characters is empty.  This holds even when the compiled
pattern would match the empty string, as `a*` (whose `do_matching` on
the empty line succeeds) illustrates. -/
theorem match_line_empty_line_false (expr : String) (ast : AST)
    (code : List Instruction) (hp : parse expr = .ok ast)
    (hc : get_code ast = .ok code) :
    (∀ fuel, match_line expr "" fuel = some (.ok false)) ∧
    do_matching "a*" "" true 100 = some (.ok true) := by
  constructor
  · intro fuel
    rw [match_line_eq_loop hp hc]
    rfl
  · rw [do_matching_eq_eval parse_of_a_star code_of_a_star]
    decide

/-- C10 witness: the pattern `a*` compiles and `match_line` on the
empty line returns `false`. -/
theorem match_line_empty_line_false_witness :
    (∀ fuel, match_line "a*" "" fuel = some (.ok false)) ∧
    do_matching "a*" "" true 100 = some (.ok true) :=
  match_line_empty_line_false "a*" (.Seq [.Star (.Char 'a')])
    [.Split 1 3, .Char 'a', .Jump 0, .Match] rfl code_of_a_star

end Ch06Regex
